import Mathlib

/-!
# simgear `Technique`: validity cache, capability predicate and drawable batching

A shallow embedding of `simgear/scene/material/Technique.cxx`.

* The per-context validity cache (`_contextMap`) is a list of `ContextInfo`,
  one per context id, grown on access like `osg::buffered_object`.
* `Technique::valid` and `Technique::validateInContext` are given twice: as
  sequential functions (one call running alone) and as the atomic steps
  (slot read, compare-and-swap, queue insertion) that an interleaving of
  several threads is made of.
* The capability predicate built by `setGLExtensionsPred` is an expression
  tree evaluated against a one-element binding.
* `processDrawables` produces the sequence of calls it makes on the cull
  visitor (`pushStateSet`, `addDrawableAndDepth`, `popStateSet`).

Floating point values (GL version numbers, depths) are kept abstract: a type
`F` with the operations the code applies to it passed as parameters.
-/

namespace simgear

/-! ## Status and the swappable slot -/

/-- Validity status of a technique in one graphics context
(`Technique::Status`). -/
inductive Status where
  | UNKNOWN
  | QUERY_IN_PROGRESS
  | INVALID
  | VALID
  deriving DecidableEq, Repr

open Status

/-- Modelled from the spec: `Swappable<Status>::compareAndSwap`, declared
outside these sources. The stored value `cur` is replaced by `newVal` only if
it still equals `oldVal`; the flag reports success. -/
def compareAndSwap (cur oldVal newVal : Status) : Bool × Status :=
  if cur = oldVal then (true, newVal) else (false, cur)

/-- Validity of the technique in one graphics context
(`Technique::ContextInfo`); a fresh slot starts out `UNKNOWN`. -/
structure ContextInfo where
  valid : Status
  deriving DecidableEq, Repr

/-- Modelled from the spec: the default `ContextInfo` a resize creates; the
state machine of the spec starts every slot at `Unknown`. -/
def ContextInfo.init : ContextInfo := ⟨UNKNOWN⟩

/-- The per-context array `_contextMap` (`osg::buffered_object<ContextInfo>`),
indexed by context id. -/
abbrev ContextMap := List ContextInfo

/-- Modelled from the spec: `buffered_object::operator[]`, "array indexed by
context id, resized on demand". An access at `pos` beyond the end first grows
the array to `pos + 1` default slots. -/
def ContextMap.access (m : ContextMap) (pos : Nat) : ContextMap :=
  m ++ List.replicate (pos + 1 - m.length) ContextInfo.init

/-- The status an atomic read `_contextMap[pos].valid()` observes. -/
def ContextMap.read (m : ContextMap) (pos : Nat) : Status :=
  ((m.access pos).getD pos ContextInfo.init).valid

/-- The array after `_contextMap[pos].valid.compareAndSwap(oldVal, newVal)`,
with the success flag. -/
def ContextMap.cas (m : ContextMap) (pos : Nat) (oldVal newVal : Status) :
    Bool × ContextMap :=
  let r := compareAndSwap (m.read pos) oldVal newVal
  (r.1, (m.access pos).set pos ⟨r.2⟩)

/-! ## Graphics contexts and queued operations -/

/-- A graphics context as far as `Technique` looks at it: the context id of
its state and whether it owns a graphics thread. -/
structure GraphicsContext where
  contextID : Nat
  hasGraphicsThread : Bool
  deriving DecidableEq, Repr

/-- The render info handed to `valid`: its state belongs to one graphics
context. -/
structure RenderInfo where
  graphicsContext : GraphicsContext
  deriving DecidableEq, Repr

/-- The context id `renderInfo->getContextID()`. -/
def RenderInfo.getContextID (ri : RenderInfo) : Nat :=
  ri.graphicsContext.contextID

/-- Address of a `Technique` object (`this`). -/
abbrev TechniquePtr := Nat

/-- The deferred validation task: it keeps a reference to its technique. -/
structure ValidateOperation where
  technique : TechniquePtr
  deriving DecidableEq, Repr

/-- Which operation queue an operation was added to. -/
inductive OperationQueue where
  | graphicsThread
  | graphicsContext
  deriving DecidableEq, Repr

/-- One `add` call: the queue, the graphics context it belongs to and the
operation. -/
structure QueuedOperation where
  queue : OperationQueue
  context : GraphicsContext
  op : ValidateOperation
  deriving DecidableEq, Repr

/-! ## Capability predicate expressions -/

/-- Float-valued expressions used by the validity predicate. -/
inductive FloatExpression (F : Type) where
  | const (value : F)
  | glVersion
  deriving DecidableEq, Repr

/-- Integer-valued expressions: a variable read from the binding. -/
inductive IntExpression where
  | variable (location : Nat)
  deriving DecidableEq, Repr

/-- Boolean expressions (`SGExpressionb`) the predicate is built from. -/
inductive BoolExpression (F : Type) where
  | lessEqual (a b : FloatExpression F)
  | extensionSupported (extString : String) (operand : IntExpression)
  | and (operands : List (BoolExpression F))
  | or (operands : List (BoolExpression F))

/-- What the graphics driver answers while a predicate is evaluated. -/
structure GLEnvironment (F : Type) where
  /-- the comparison `a <= b` on floats -/
  lessEqual : F → F → Bool
  /-- the value of `getGLVersionNumber()` -/
  getGLVersionNumber : F
  /-- the value of `isGLExtensionSupported(contextId, ext)` -/
  isGLExtensionSupported : Nat → String → Bool

/-- Values of the binding slots (`intVal` of each). -/
abbrev Binding := List Nat

/-- Evaluation of a float expression. -/
def FloatExpression.getValue {F : Type} (env : GLEnvironment F) :
    FloatExpression F → F
  | .const v => v
  | .glVersion => env.getGLVersionNumber

/-- Evaluation of an integer expression; `none` when the variable lies outside
the binding. -/
def IntExpression.getValue (b : Binding) : IntExpression → Option Nat
  | .variable location => b.get? location

mutual
/-- Evaluation of a boolean expression; `none` when a variable read falls
outside the binding. -/
def BoolExpression.getValue {F : Type} (env : GLEnvironment F) (b : Binding) :
    BoolExpression F → Option Bool
  | .lessEqual x y => some (env.lessEqual (x.getValue env) (y.getValue env))
  | .extensionSupported ext operand =>
      match operand.getValue b with
      | none => none
      | some contextId => some (env.isGLExtensionSupported contextId ext)
  | .and operands => BoolExpression.evalAnd env b operands
  | .or operands => BoolExpression.evalOr env b operands
/-- Modelled from the spec: `AndExpression::eval`, the conjunction of the
operands taken in order, stopping at the first false one. -/
def BoolExpression.evalAnd {F : Type} (env : GLEnvironment F) (b : Binding) :
    List (BoolExpression F) → Option Bool
  | [] => some true
  | e :: rest =>
      match e.getValue env b with
      | none => none
      | some false => some false
      | some true => BoolExpression.evalAnd env b rest
/-- Modelled from the spec: `OrExpression::eval`, the disjunction of the
operands taken in order, stopping at the first true one. -/
def BoolExpression.evalOr {F : Type} (env : GLEnvironment F) (b : Binding) :
    List (BoolExpression F) → Option Bool
  | [] => some false
  | e :: rest =>
      match e.getValue env b with
      | none => none
      | some true => some true
      | some false => BoolExpression.evalOr env b rest
end

/-! ## Binding layout -/

/-- Kinds of values a binding slot can hold. -/
inductive BindingType where
  | BOOL
  | INT
  | FLOAT
  | DOUBLE
  deriving DecidableEq, Repr

/-- A named slot of a binding layout. -/
structure VariableBinding where
  name : String
  type : BindingType
  location : Nat
  deriving DecidableEq, Repr

/-- Modelled from the spec: `expression::BindingLayout`, "a mapping from
symbolic names to integer slot indices and value kinds", declared outside
these sources. -/
abbrev BindingLayout := List VariableBinding

/-- Modelled from the spec: `BindingLayout::findBinding`, the slot recorded
under `name`, if any. -/
def BindingLayout.findBinding (layout : BindingLayout) (name : String) :
    Option VariableBinding :=
  layout.find? (fun vb => vb.name == name)

/-- Modelled from the spec: `BindingLayout::addBinding`. A name already
present keeps its slot; a new name takes the next free index. The result is
the slot index and the extended layout. -/
def BindingLayout.addBinding (layout : BindingLayout) (name : String)
    (type : BindingType) : Nat × BindingLayout :=
  match layout.findBinding name with
  | some vb => (vb.location, layout)
  | none => (layout.length, layout ++ [⟨name, type, layout.length⟩])

/-- Modelled from the spec: `FixedLengthBinding<n>` with the slot at
`location` set to `v`; `none` when `location` is not a slot of the binding. -/
def FixedLengthBinding.bind (n : Nat) (location : Int) (v : Nat) :
    Option Binding :=
  if 0 ≤ location ∧ location < (n : Int) then
    some ((List.replicate n 0).set location.toNat v)
  else none

/-! ## Technique -/

/-- A rendering pass; only its identity matters here. -/
structure Pass where
  id : Nat
  deriving DecidableEq, Repr

/-- The fields of `Technique` that the functions below use. -/
structure Technique (F : Type) where
  contextMap : ContextMap
  alwaysValid : Bool
  validExpression : Option (BoolExpression F)
  contextIdLocation : Int
  passes : List Pass

/-- The constructor `Technique::Technique(bool alwaysValid)`. -/
def Technique.new (F : Type) (alwaysValid : Bool) : Technique F :=
  { contextMap := [], alwaysValid := alwaysValid, validExpression := none,
    contextIdLocation := -1, passes := [] }

/-- The function `Technique::valid`, one call running without interference.
The result is the returned status, the technique afterwards and the
operation queue afterwards. -/
def Technique.valid {F : Type} (this : TechniquePtr) (t : Technique F)
    (renderInfo : RenderInfo) (ops : List QueuedOperation) :
    Status × Technique F × List QueuedOperation :=
  if t.alwaysValid then (VALID, t, ops)
  else
    let contextID := renderInfo.getContextID
    let m := t.contextMap.access contextID
    let status := m.read contextID
    if status ≠ UNKNOWN then (status, { t with contextMap := m }, ops)
    else
      let newStatus := QUERY_IN_PROGRESS
      let r := m.cas contextID status newStatus
      if r.1 = false then
        (r.2.read contextID, { t with contextMap := r.2 }, ops)
      else
        let validOp : ValidateOperation := ⟨this⟩
        let context := renderInfo.graphicsContext
        if context.hasGraphicsThread then
          (newStatus, { t with contextMap := r.2 },
            ops ++ [⟨OperationQueue.graphicsThread, context, validOp⟩])
        else
          (newStatus, { t with contextMap := r.2 },
            ops ++ [⟨OperationQueue.graphicsContext, context, validOp⟩])

/-- First atomic step of `validateInContext`: look the slot up and read it. -/
def Technique.validateInContextRead {F : Type} (t : Technique F)
    (gc : GraphicsContext) : Status × Technique F :=
  let contextId := gc.contextID
  let m := t.contextMap.access contextId
  (m.read contextId, { t with contextMap := m })

/-- The predicate evaluation of `validateInContext`: the context id is written
into the one-element binding at `_contextIdLocation` and the expression is
evaluated. `none` when there is no expression or the write or a read falls
outside the binding. -/
def Technique.evalValidExpression {F : Type} (env : GLEnvironment F)
    (t : Technique F) (contextId : Nat) : Option Bool :=
  match t.validExpression with
  | none => none
  | some e =>
      match FixedLengthBinding.bind 1 t.contextIdLocation contextId with
      | none => none
      | some binding => e.getValue env binding

/-- Last atomic step of `validateInContext`: the compare-and-swap from the
value read earlier to the computed status. -/
def Technique.validateInContextSwap {F : Type} (t : Technique F)
    (gc : GraphicsContext) (oldVal : Status) (value : Bool) : Technique F :=
  let newVal := if value then VALID else INVALID
  { t with contextMap := (t.contextMap.cas gc.contextID oldVal newVal).2 }

/-- The function `Technique::validateInContext`, running without
interference. -/
def Technique.validateInContext {F : Type} (env : GLEnvironment F)
    (t : Technique F) (gc : GraphicsContext) : Option (Technique F) :=
  let r := t.validateInContextRead gc
  match r.2.evalValidExpression env gc.contextID with
  | none => none
  | some value => some (r.2.validateInContextSwap gc r.1 value)

/-- The loop shared by `releaseGLObjects(0)` and `refreshValidity`: every
existing slot is swapped from the value just read to `UNKNOWN`. -/
def ContextMap.resetAll (m : ContextMap) : ContextMap :=
  (List.range m.length).foldl
    (fun acc i => (acc.cas i (acc.read i) UNKNOWN).2) m

/-- The function `Technique::releaseGLObjects`; `state` is the context id of
the state passed in, `none` for a null state. The calls forwarded to the
shadowing state set and the passes touch no field of the technique. -/
def Technique.releaseGLObjects {F : Type} (t : Technique F)
    (state : Option Nat) : Technique F :=
  match state with
  | none => { t with contextMap := t.contextMap.resetAll }
  | some contextID =>
      let m := t.contextMap.access contextID
      let oldVal := m.read contextID
      { t with contextMap := (m.cas contextID oldVal UNKNOWN).2 }

/-- The function `Technique::refreshValidity`. -/
def Technique.refreshValidity {F : Type} (t : Technique F) : Technique F :=
  { t with contextMap := t.contextMap.resetAll }

/-- The function `Technique::setValidExpression`. -/
def Technique.setValidExpression {F : Type} (t : Technique F)
    (exp : BoolExpression F) (layout : BindingLayout) : Technique F :=
  match layout.findBinding "__contextId" with
  | some binding =>
      { t with validExpression := some exp,
               contextIdLocation := (binding.location : Int) }
  | none => { t with validExpression := some exp }

/-- The operand list of the `AndExpression` that `setGLExtensionsPred`
collects; `none` while no extension has been seen. -/
def extensionsExpression {F : Type} (contextExp : IntExpression)
    (extensions : List String) : Option (List (BoolExpression F)) :=
  extensions.foldl
    (fun acc ext =>
      some (acc.getD [] ++ [BoolExpression.extensionSupported ext contextExp]))
    none

/-- The function `Technique::setGLExtensionsPred`. -/
def Technique.setGLExtensionsPred {F : Type} (t : Technique F) (glVersion : F)
    (extensions : List String) : Technique F :=
  let layout : BindingLayout := []
  let r := layout.addBinding "__contextId" BindingType.INT
  let contextExp := IntExpression.variable r.1
  let versionTest : BoolExpression F :=
    BoolExpression.lessEqual (FloatExpression.const glVersion)
      FloatExpression.glVersion
  let predicate : BoolExpression F :=
    match extensionsExpression contextExp extensions with
    | some operands =>
        BoolExpression.or [versionTest, BoolExpression.and operands]
    | none => versionTest
  t.setValidExpression predicate r.2

/-! ## Drawable batching -/

/-- The bound of a drawable: whether it is valid, and its centre. -/
structure BoundingBox (V : Type) where
  valid : Bool
  center : V
  deriving DecidableEq, Repr

/-- A drawable as `processDrawables` looks at it. `cullCallback` is `none`
when the drawable has no cull callback and otherwise holds the answer of the
callback's `cull`. -/
structure Drawable (V : Type) where
  id : Nat
  cullCallback : Option Bool
  bound : BoundingBox V
  deriving DecidableEq, Repr

/-- The cull visitor as `processDrawables` queries it. -/
structure CullVisitor (V M F : Type) where
  /-- the matrix `*cv->getModelViewMatrix()` -/
  modelViewMatrix : M
  /-- whether `getComputeNearFarMode() != DO_NOT_COMPUTE_NEAR_FAR` -/
  computeNearFar : Bool
  /-- the answer of `cv->isCulled(bb)` -/
  isCulled : BoundingBox V → Bool
  /-- the answer of `cv->updateCalculatedNearFar(matrix, drawable, false)` -/
  updateCalculatedNearFar : M → Drawable V → Bool
  /-- the value of `cv->getDistanceFromEyePoint(center, false)` -/
  getDistanceFromEyePoint : V → F

/-- The calls `processDrawables` makes on the cull visitor's render graph. -/
inductive CullCall (V M F : Type) where
  | pushStateSet (pass : Pass)
  | addDrawableAndDepth (drawable : Drawable V) (matrix : M) (depth : F)
  | popStateSet
  deriving DecidableEq, Repr

/-- The float constants and tests `processDrawables` uses. -/
structure FloatModel (F : Type) where
  /-- the literal `0.0f` -/
  zero : F
  /-- the constant `FLT_MAX` -/
  FLT_MAX : F
  /-- the test `isNaN` -/
  isNaN : F → Bool

/-- The batch size `NUM_DRAWABLES`. -/
def NUM_DRAWABLES : Nat := 128

/-- The cull test at the head of the first loop's body. -/
def cullTest {V M F : Type} (cv : CullVisitor V M F) (isCullingActive : Bool)
    (drawable : Drawable V) : Bool :=
  (match drawable.cullCallback with
    | some culled => culled
    | none => false)
  || (isCullingActive && cv.isCulled drawable.bound)

/-- The body of the first loop of `processDrawables`: the value stored in
`depth[i]` for one drawable. -/
def computeDepth {V M F : Type} (fm : FloatModel F) (cv : CullVisitor V M F)
    (isCullingActive : Bool) (drawable : Drawable V) : F :=
  let bb := drawable.bound
  if cullTest cv isCullingActive drawable then fm.FLT_MAX
  else if (cv.computeNearFar && bb.valid)
      && !cv.updateCalculatedNearFar cv.modelViewMatrix drawable then fm.FLT_MAX
  else
    let depth := if bb.valid then cv.getDistanceFromEyePoint bb.center else fm.zero
    if fm.isNaN depth then fm.FLT_MAX else depth

/-- The first loop of `processDrawables`: `remaining` is `NUM_DRAWABLES - i`,
`itr` the current position in `drawables`. The result is the position the loop
stops at and the entries of `depth` written, in order; `none` when the loop
leaves the drawable list. -/
def computeDepths {V M F : Type} (fm : FloatModel F) (cv : CullVisitor V M F)
    (isCullingActive : Bool) (drawables : List (Drawable V)) (end_ : Nat) :
    Nat → Nat → Option (Nat × List F)
  | 0, itr => some (itr, [])
  | remaining + 1, itr =>
      if itr = end_ then some (itr, [])
      else
        match drawables.get? itr with
        | none => none
        | some drawable =>
            match computeDepths fm cv isCullingActive drawables end_ remaining (itr + 1) with
            | none => none
            | some (drawablesEnd, depth) =>
                some (drawablesEnd, computeDepth fm cv isCullingActive drawable :: depth)

/-- The inner loop of the second phase: `depth` holds the entries from index
`i` on, one for each position from `itr` up to `drawablesEnd`. -/
def submitDrawables {V M F : Type} [DecidableEq F] (fm : FloatModel F)
    (cv : CullVisitor V M F) (drawables : List (Drawable V)) :
    Nat → List F → List (CullCall V M F)
  | _, [] => []
  | itr, d :: depth =>
      (if d ≠ fm.FLT_MAX then
        match drawables.get? itr with
        | some drawable => [CullCall.addDrawableAndDepth drawable cv.modelViewMatrix d]
        | none => []
      else [])
      ++ submitDrawables fm cv drawables (itr + 1) depth

/-- The loop over the passes of the second phase. -/
def submitPasses {V M F : Type} [DecidableEq F] (fm : FloatModel F)
    (cv : CullVisitor V M F) (drawables : List (Drawable V)) (begin : Nat)
    (depth : List F) : List Pass → List (CullCall V M F)
  | [] => []
  | pass :: rest =>
      [CullCall.pushStateSet pass]
      ++ submitDrawables fm cv drawables begin depth
      ++ [CullCall.popStateSet]
      ++ submitPasses fm cv drawables begin depth rest

/-- The function `Technique::processDrawables`. Iterators are positions in the
drawable list of the geode. The result is the returned position and the
calls made on the cull visitor, in order. -/
def Technique.processDrawables {V M F : Type} [DecidableEq F] (fm : FloatModel F)
    (t : Technique F) (drawables : List (Drawable V)) (begin end_ : Nat)
    (cv : CullVisitor V M F) (isCullingActive : Bool) :
    Option (Nat × List (CullCall V M F)) :=
  match computeDepths fm cv isCullingActive drawables end_ NUM_DRAWABLES begin with
  | none => none
  | some (drawablesEnd, depth) =>
      some (drawablesEnd, submitPasses fm cv drawables begin depth t.passes)

/-- Modelled from the spec: the caller of `processDrawables`, which "advances
and repeats for the remainder". The position reached after `calls` calls, each
starting where the previous one returned. -/
def positionAfter {V M F : Type} [DecidableEq F] (fm : FloatModel F)
    (t : Technique F) (drawables : List (Drawable V)) (begin end_ : Nat)
    (cv : CullVisitor V M F) (isCullingActive : Bool) : Nat → Option Nat
  | 0 => some begin
  | calls + 1 =>
      match positionAfter fm t drawables begin end_ cv isCullingActive calls with
      | none => none
      | some itr =>
          match t.processDrawables fm drawables itr end_ cv isCullingActive with
          | none => none
          | some r => some r.1

/-! ## The atomic steps of concurrent calls -/

/-- Where one call of `valid` stands between its atomic steps. -/
inductive ValidCall where
  /-- nothing done yet; the slot read comes next -/
  | start
  /-- the slot was read as `status`; the compare-and-swap comes next -/
  | swap (status : Status)
  /-- the compare-and-swap failed; the second read comes next -/
  | reread
  /-- the compare-and-swap succeeded; the queue insertion comes next -/
  | schedule
  /-- the call returned `result`; `scheduled` tells whether it queued an
  operation -/
  | done (result : Status) (scheduled : Bool)
  deriving DecidableEq, Repr

/-- Whether the call has returned. -/
def ValidCall.isDone : ValidCall → Bool
  | .done _ _ => true
  | _ => false

/-- Whether the call has queued an operation. -/
def ValidCall.hasScheduled : ValidCall → Bool
  | .done _ scheduled => scheduled
  | _ => false

/-- Whether the call has won the compare-and-swap. -/
def ValidCall.hasWon : ValidCall → Bool
  | .schedule => true
  | .done _ scheduled => scheduled
  | _ => false

/-- The atomic steps a call of `valid` has left at most. -/
def ValidCall.stepsLeft : ValidCall → Nat
  | .start => 3
  | .swap _ => 2
  | .reread => 1
  | .schedule => 1
  | .done _ _ => 0

/-- One atomic step of `Technique::valid`: the slot read (with the test of
`_alwaysValid` before it), the compare-and-swap, the second read after a lost
swap, or the queue insertion after a won one. -/
def Technique.validStep {F : Type} (this : TechniquePtr) (renderInfo : RenderInfo)
    (call : ValidCall) (t : Technique F) (ops : List QueuedOperation) :
    ValidCall × Technique F × List QueuedOperation :=
  let contextID := renderInfo.getContextID
  match call with
  | .start =>
      if t.alwaysValid then (.done VALID false, t, ops)
      else
        let m := t.contextMap.access contextID
        let status := m.read contextID
        if status ≠ UNKNOWN then (.done status false, { t with contextMap := m }, ops)
        else (.swap status, { t with contextMap := m }, ops)
  | .swap status =>
      let newStatus := QUERY_IN_PROGRESS
      let r := t.contextMap.cas contextID status newStatus
      if r.1 = false then (.reread, { t with contextMap := r.2 }, ops)
      else (.schedule, { t with contextMap := r.2 }, ops)
  | .reread => (.done (t.contextMap.read contextID) false, t, ops)
  | .schedule =>
      let validOp : ValidateOperation := ⟨this⟩
      let context := renderInfo.graphicsContext
      if context.hasGraphicsThread then
        (.done QUERY_IN_PROGRESS true, t,
          ops ++ [⟨OperationQueue.graphicsThread, context, validOp⟩])
      else
        (.done QUERY_IN_PROGRESS true, t,
          ops ++ [⟨OperationQueue.graphicsContext, context, validOp⟩])
  | .done result scheduled => (.done result scheduled, t, ops)

/-- Several calls of `valid` on one technique and one render info, together
with the thread that runs the queued validation operations. -/
structure System (F : Type) where
  technique : Technique F
  /-- every operation queued so far, in order -/
  ops : List QueuedOperation
  /-- how many of them have been taken up -/
  started : Nat
  /-- the operation being run: its context and the status it read -/
  worker : Option (GraphicsContext × Status)
  /-- the calls of `valid` -/
  calls : List ValidCall

/-- One atomic step of the system. -/
inductive Action where
  /-- call number `i` of `valid` takes its next step -/
  | call (i : Nat)
  /-- the next queued operation starts: `validateInContext` reads the slot -/
  | taskRead
  /-- the running operation finishes: the predicate came out as `value` and
  `validateInContext` does its compare-and-swap -/
  | taskSwap (value : Bool)
  deriving DecidableEq, Repr

/-- The system before any step: `n` calls of `valid` about to start, nothing
queued. -/
def System.init {F : Type} (t : Technique F) (n : Nat) : System F :=
  { technique := t, ops := [], started := 0, worker := none,
    calls := List.replicate n ValidCall.start }

/-- The effect of one atomic step; a step that is not enabled changes
nothing. -/
def System.step {F : Type} (this : TechniquePtr) (renderInfo : RenderInfo)
    (s : System F) : Action → System F
  | .call i =>
      match s.calls[i]? with
      | none => s
      | some call =>
          let r := Technique.validStep this renderInfo call s.technique s.ops
          { s with technique := r.2.1, ops := r.2.2, calls := s.calls.set i r.1 }
  | .taskRead =>
      match s.worker, s.ops[s.started]? with
      | none, some op =>
          let r := s.technique.validateInContextRead op.context
          { s with technique := r.2, started := s.started + 1,
                   worker := some (op.context, r.1) }
      | _, _ => s
  | .taskSwap value =>
      match s.worker with
      | some (gc, oldVal) =>
          { s with technique := s.technique.validateInContextSwap gc oldVal value,
                   worker := none }
      | none => s

/-- The system after the steps of an interleaving, taken in order. -/
def System.run {F : Type} (this : TechniquePtr) (renderInfo : RenderInfo)
    (s : System F) (interleaving : List Action) : System F :=
  interleaving.foldl (System.step this renderInfo) s

/-! ## Specification-side definitions and sample data -/

/-- The operation `valid` queues for `renderInfo`: on the graphics thread of
the context when it has one, on the context itself otherwise. -/
def scheduledOperation (this : TechniquePtr) (renderInfo : RenderInfo) :
    QueuedOperation :=
  ⟨if renderInfo.graphicsContext.hasGraphicsThread then OperationQueue.graphicsThread
      else OperationQueue.graphicsContext,
    renderInfo.graphicsContext, ⟨this⟩⟩

/-- An always-valid technique without predicate whose slot 0 holds `INVALID`. -/
def sampleAlwaysValid : Technique Nat :=
  { Technique.new Nat true with contextMap := [⟨INVALID⟩] }

/-- A technique with three slots, the middle one `UNKNOWN`. -/
def sampleTechnique : Technique Nat :=
  { Technique.new Nat false with contextMap := [⟨VALID⟩, ⟨UNKNOWN⟩, ⟨INVALID⟩] }

/-- A driver reporting GL version `version`, supporting extension `GL_X` on
the contexts listed in `withX` and no other extension. -/
def sampleEnvironment (version : ℚ) (withX : List Nat) : GLEnvironment ℚ :=
  { lessEqual := fun a b => decide (a ≤ b),
    getGLVersionNumber := version,
    isGLExtensionSupported := fun c ext => decide (c ∈ withX) && ext == "GL_X" }

/-- A technique whose slot 0 is `QUERY_IN_PROGRESS`. -/
def sampleInProgress : Technique ℚ :=
  { Technique.new ℚ false with contextMap := [⟨QUERY_IN_PROGRESS⟩] }

/-- A technique configured by `setGLExtensionsPred 5 []` whose slot 0 was
reset to `UNKNOWN` while a validation task was still queued. -/
def sampleStale : Technique ℚ :=
  ({ Technique.new ℚ false with contextMap := [⟨UNKNOWN⟩] } : Technique ℚ).setGLExtensionsPred
    5 []

/-- The items of one call: those from `begin` up to `end_`, at most
`NUM_DRAWABLES` of them. -/
def batchItems {V : Type} (drawables : List (Drawable V)) (begin end_ : Nat) :
    List (Drawable V) :=
  (drawables.drop begin).take (min (end_ - begin) NUM_DRAWABLES)

/-- What the spec has one pass submit: the items of the batch whose depth is
not the excluded sentinel, in batch order, each with the model-view matrix and
its depth. -/
def expectedSubmission {V M F : Type} [DecidableEq F] (fm : FloatModel F)
    (cv : CullVisitor V M F) (isCullingActive : Bool) (items : List (Drawable V)) :
    List (CullCall V M F) :=
  (items.filter
      (fun d => decide (computeDepth fm cv isCullingActive d ≠ fm.FLT_MAX))).map
    (fun d => CullCall.addDrawableAndDepth d cv.modelViewMatrix
      (computeDepth fm cv isCullingActive d))

/-- What the spec has a call do for its passes: for each pass in order, push
it, submit, pop it. -/
def expectedCalls {V M F : Type} [DecidableEq F] (fm : FloatModel F)
    (cv : CullVisitor V M F) (isCullingActive : Bool) (items : List (Drawable V))
    (passes : List Pass) : List (CullCall V M F) :=
  passes.flatMap (fun pass =>
    [CullCall.pushStateSet pass]
    ++ expectedSubmission fm cv isCullingActive items
    ++ [CullCall.popStateSet])

/-- A float model over the rationals: no value is NaN. -/
def sampleFloats : FloatModel ℚ :=
  { zero := 0, FLT_MAX := 340282346638528859811704183484516925440,
    isNaN := fun _ => false }

/-- A cull visitor that computes near and far, culls valid bounds centred
beyond 100 and measures the distance of a centre by its value. -/
def sampleVisitor : CullVisitor ℚ Nat ℚ :=
  { modelViewMatrix := 3, computeNearFar := true,
    isCulled := fun bb => bb.valid && decide (100 < bb.center),
    updateCalculatedNearFar := fun _ _ => true,
    getDistanceFromEyePoint := fun v => v }

/-- A drawable with a valid bound centred at 2 and no cull callback. -/
def boundedDrawable : Drawable ℚ := ⟨0, none, ⟨true, 2⟩⟩

/-- A drawable with an invalid bound whose cull callback culls it. -/
def culledDrawable : Drawable ℚ := ⟨1, some true, ⟨false, 0⟩⟩

/-- A drawable with an invalid bound and a cull callback that keeps it. -/
def unboundedDrawable : Drawable ℚ := ⟨2, some false, ⟨false, 0⟩⟩

/-- A technique with two passes. -/
def sampleTwoPasses : Technique ℚ :=
  { Technique.new ℚ false with passes := [⟨10⟩, ⟨11⟩] }

/-- What the invariant asks of one call, given the status `slot` of the slot
the calls contend for. -/
def ValidCall.consistent (slot : Status) : ValidCall → Prop
  | .start => True
  | .swap status => status = UNKNOWN
  | .reread => slot ≠ UNKNOWN
  | .schedule => slot ≠ UNKNOWN
  | .done result scheduled =>
      slot ≠ UNKNOWN ∧ result ≠ UNKNOWN ∧ (scheduled = true → result = QUERY_IN_PROGRESS)

/-- The invariant of the interleaved system: while the slot is `UNKNOWN` no
call has won the swap and nothing is queued or running; once it is not, exactly
one call has won; the queue holds one operation for each call that reached its
queue insertion. -/
structure System.Invariant {F : Type} (this : TechniquePtr) (renderInfo : RenderInfo)
    (s : System F) : Prop where
  notAlways : s.technique.alwaysValid = false
  consistent : ∀ call ∈ s.calls,
    call.consistent (s.technique.contextMap.read renderInfo.getContextID)
  unknown : s.technique.contextMap.read renderInfo.getContextID = UNKNOWN →
    s.calls.countP ValidCall.hasWon = 0 ∧ s.ops = [] ∧ s.worker = none
  known : s.technique.contextMap.read renderInfo.getContextID ≠ UNKNOWN →
    s.calls.countP ValidCall.hasWon = 1
  queued : s.ops = List.replicate (s.calls.countP ValidCall.hasScheduled)
    (scheduledOperation this renderInfo)

/-- The second invariant of the interleaved system, on the resolved value: a
call that returned something other than `QUERY_IN_PROGRESS` returned what the
slot holds; once the slot holds `VALID` or `INVALID` no operation is running
and the queued one has been taken up; a running operation belongs to the
render info's context, read `QUERY_IN_PROGRESS` and the slot still holds
it. -/
structure System.Resolution {F : Type} (renderInfo : RenderInfo) (s : System F) :
    Prop where
  returned : ∀ result scheduled, ValidCall.done result scheduled ∈ s.calls →
    result ≠ QUERY_IN_PROGRESS →
    s.technique.contextMap.read renderInfo.getContextID = result
  idle : s.technique.contextMap.read renderInfo.getContextID ≠ UNKNOWN →
    s.technique.contextMap.read renderInfo.getContextID ≠ QUERY_IN_PROGRESS →
    s.worker = none ∧ 1 ≤ s.started
  running : ∀ gc oldVal, s.worker = some (gc, oldVal) →
    gc = renderInfo.graphicsContext ∧ oldVal = QUERY_IN_PROGRESS
    ∧ s.technique.contextMap.read renderInfo.getContextID = QUERY_IN_PROGRESS
    ∧ 1 ≤ s.started

/-- Two calls racing on slot 1: both read `UNKNOWN`, call 1 wins the swap and
queues the operation, the operation runs to `VALID`, then call 0 reads
again. -/
def sampleInterleaving : List Action :=
  [Action.call 0, Action.call 1, Action.call 1, Action.call 0, Action.call 1,
    Action.taskRead, Action.taskSwap true, Action.call 0]

/-! ## Facts about the context map -/

theorem ContextMap.length_access (m : ContextMap) (pos : Nat) :
    (m.access pos).length = max m.length (pos + 1) := by
  simp only [ContextMap.access, List.length_append, List.length_replicate]
  omega

theorem ContextMap.getD_access (m : ContextMap) (pos c : Nat) :
    (m.access pos).getD c ContextInfo.init = m.getD c ContextInfo.init := by
  simp only [ContextMap.access, List.getD_eq_getElem?_getD, List.getElem?_append,
    List.getElem?_replicate]
  by_cases h : c < m.length
  · simp [h]
  · have h2 : m[c]? = none := List.getElem?_eq_none (by omega)
    simp only [h, if_false, h2]
    split_ifs <;> simp

theorem ContextMap.read_eq (m : ContextMap) (c : Nat) :
    m.read c = (m.getD c ContextInfo.init).valid := by
  simp only [ContextMap.read, ContextMap.getD_access]

theorem ContextMap.read_access (m : ContextMap) (pos c : Nat) :
    (m.access pos).read c = m.read c := by
  simp only [ContextMap.read_eq, ContextMap.getD_access]

theorem ContextMap.access_access (m : ContextMap) (pos : Nat) :
    (m.access pos).access pos = m.access pos := by
  have h := ContextMap.length_access m pos
  have h2 : pos + 1 - (m.access pos).length = 0 := by omega
  show (m.access pos) ++ List.replicate (pos + 1 - (m.access pos).length) ContextInfo.init
    = m.access pos
  rw [h2]
  simp

theorem ContextMap.read_set_access (m : ContextMap) (pos c : Nat) (v : Status) :
    ContextMap.read ((m.access pos).set pos ⟨v⟩) c = if c = pos then v else m.read c := by
  have hl := ContextMap.length_access m pos
  have hlt : pos < (m.access pos).length := by omega
  have hg := ContextMap.getD_access m pos c
  simp only [ContextMap.read_eq, List.getD_eq_getElem?_getD, List.getElem?_set] at hg ⊢
  by_cases h : c = pos
  · subst h
    simp [hlt]
  · have h2 : ¬ pos = c := fun e => h e.symm
    simp only [h, h2, if_false, hg]

/-- After a compare-and-swap on slot `pos`, slot `pos` holds the swap's result
and every other slot reads as before. -/
theorem ContextMap.read_cas (m : ContextMap) (pos c : Nat) (oldVal newVal : Status) :
    (m.cas pos oldVal newVal).2.read c
      = if c = pos then (compareAndSwap (m.read pos) oldVal newVal).2 else m.read c := by
  simp only [ContextMap.cas, ContextMap.read_set_access]

theorem ContextMap.cas_fst (m : ContextMap) (pos : Nat) (oldVal newVal : Status) :
    (m.cas pos oldVal newVal).1 = decide (m.read pos = oldVal) := by
  simp only [ContextMap.cas, compareAndSwap]
  split_ifs <;> simp_all

theorem ContextMap.length_cas (m : ContextMap) (pos : Nat) (oldVal newVal : Status) :
    (m.cas pos oldVal newVal).2.length = max m.length (pos + 1) := by
  simp only [ContextMap.cas, List.length_set, ContextMap.length_access]

/-- A swap from the value just read always succeeds and stores the new
value. -/
theorem ContextMap.read_cas_self (m : ContextMap) (pos c : Nat) (newVal : Status) :
    (m.cas pos (m.read pos) newVal).2.read c = if c = pos then newVal else m.read c := by
  simp [ContextMap.read_cas, compareAndSwap]

theorem ContextMap.resetAll_aux (m : ContextMap) (n : Nat) (hn : n ≤ m.length) :
    ((List.range n).foldl (fun acc i => (acc.cas i (acc.read i) UNKNOWN).2) m).length
        = m.length
    ∧ ∀ c, ((List.range n).foldl
          (fun acc i => (acc.cas i (acc.read i) UNKNOWN).2) m).read c
        = if c < n then UNKNOWN else m.read c := by
  induction n with
  | zero => simp
  | succ k ih =>
    obtain ⟨hlen, hread⟩ := ih (by omega)
    rw [List.range_succ, List.foldl_append]
    simp only [List.foldl_cons, List.foldl_nil]
    refine ⟨?_, ?_⟩
    · rw [ContextMap.length_cas, hlen]; omega
    · intro c
      rw [ContextMap.read_cas_self, hread]
      by_cases h1 : c = k
      · subst h1; simp
      · by_cases h2 : c < k
        · have : c < k + 1 := by omega
          simp [h1, h2, this]
        · have : ¬ c < k + 1 := by omega
          simp [h1, h2, this]

theorem ContextMap.length_resetAll (m : ContextMap) :
    m.resetAll.length = m.length :=
  (ContextMap.resetAll_aux m m.length le_rfl).1

/-- After the reset loop every slot reads `UNKNOWN`: the existing ones were
swapped, the others do not exist yet. -/
theorem ContextMap.read_resetAll (m : ContextMap) (c : Nat) :
    m.resetAll.read c = UNKNOWN := by
  have h := (ContextMap.resetAll_aux m m.length le_rfl).2 c
  unfold ContextMap.resetAll
  rw [h]
  split_ifs with hc
  · rfl
  · rw [ContextMap.read_eq, List.getD_eq_getElem?_getD,
      List.getElem?_eq_none (by omega)]
    rfl

/-- Every existing slot holds `UNKNOWN` after the reset loop. -/
theorem ContextMap.get_resetAll (m : ContextMap) (c : Nat) (hc : c < m.length) :
    m.resetAll.get? c = some ⟨UNKNOWN⟩ := by
  have hl := ContextMap.length_resetAll m
  have hr := ContextMap.read_resetAll m c
  have hc2 : c < m.resetAll.length := by omega
  rw [ContextMap.read_eq, List.getD_eq_getElem?_getD, List.getElem?_eq_getElem hc2] at hr
  simp only [Option.getD_some] at hr
  rw [List.get?_eq_getElem?, List.getElem?_eq_getElem hc2]
  congr 1
  cases hx : m.resetAll[c] with
  | mk v => rw [hx] at hr; simp only at hr; rw [hr]

/-! ## The sequential behaviour of `valid` -/

theorem valid_of_unknown {F : Type} (this : TechniquePtr) (t : Technique F)
    (renderInfo : RenderInfo) (ops : List QueuedOperation)
    (hAlways : t.alwaysValid = false)
    (hSlot : t.contextMap.read renderInfo.getContextID = UNKNOWN) :
    Technique.valid this t renderInfo ops
      = (QUERY_IN_PROGRESS,
          { t with contextMap :=
              (t.contextMap.cas renderInfo.getContextID UNKNOWN QUERY_IN_PROGRESS).2 },
          ops ++ [scheduledOperation this renderInfo]) := by
  have hcas : ((t.contextMap.access renderInfo.getContextID).cas
        renderInfo.getContextID UNKNOWN QUERY_IN_PROGRESS)
      = (true, (t.contextMap.cas renderInfo.getContextID UNKNOWN QUERY_IN_PROGRESS).2) := by
    simp only [ContextMap.cas, ContextMap.read_access, ContextMap.access_access, hSlot,
      compareAndSwap, if_true]
  unfold Technique.valid
  simp only [hAlways, ContextMap.read_access, hSlot, hcas, scheduledOperation]
  cases renderInfo.graphicsContext.hasGraphicsThread <;> simp

theorem valid_of_known {F : Type} (this : TechniquePtr) (t : Technique F)
    (renderInfo : RenderInfo) (ops : List QueuedOperation)
    (hAlways : t.alwaysValid = false)
    (hSlot : t.contextMap.read renderInfo.getContextID ≠ UNKNOWN) :
    Technique.valid this t renderInfo ops
      = (t.contextMap.read renderInfo.getContextID,
          { t with contextMap := t.contextMap.access renderInfo.getContextID }, ops) := by
  unfold Technique.valid
  simp [hAlways, ContextMap.read_access, hSlot]

/-- C10: on a technique marked always-valid, `valid` returns `VALID` for every
context, whatever the slots hold and whether or not a predicate is set; it
queues no operation and leaves the technique, hence every slot, as it was. -/
theorem valid_alwaysValid {F : Type} (this : TechniquePtr) (t : Technique F)
    (renderInfo : RenderInfo) (ops : List QueuedOperation)
    (hAlways : t.alwaysValid = true) :
    Technique.valid this t renderInfo ops = (VALID, t, ops) := by
  unfold Technique.valid
  simp [hAlways]

theorem valid_alwaysValid_witness :
    sampleAlwaysValid.alwaysValid = true
    ∧ Technique.valid 7 sampleAlwaysValid ⟨⟨0, true⟩⟩ [] = (VALID, sampleAlwaysValid, []) :=
  ⟨rfl, valid_alwaysValid 7 sampleAlwaysValid ⟨⟨0, true⟩⟩ [] rfl⟩

/-- C2: on a technique not marked always-valid, `valid` on a context whose
slot reads `UNKNOWN` returns `QUERY_IN_PROGRESS`; the slot is moved by a
successful compare-and-swap from `UNKNOWN` to `QUERY_IN_PROGRESS`; exactly one
operation bound to this technique is appended to the queue, on the graphics
thread of the context if it has one and on the context otherwise; every other
slot reads as before. -/
theorem valid_unknown_schedules {F : Type} (this : TechniquePtr) (t : Technique F)
    (renderInfo : RenderInfo) (ops : List QueuedOperation)
    (hAlways : t.alwaysValid = false)
    (hSlot : t.contextMap.read renderInfo.getContextID = UNKNOWN) :
    (Technique.valid this t renderInfo ops).1 = QUERY_IN_PROGRESS
    ∧ (Technique.valid this t renderInfo ops).2.1.contextMap
        = (t.contextMap.cas renderInfo.getContextID UNKNOWN QUERY_IN_PROGRESS).2
    ∧ (t.contextMap.cas renderInfo.getContextID UNKNOWN QUERY_IN_PROGRESS).1 = true
    ∧ (Technique.valid this t renderInfo ops).2.1.contextMap.read renderInfo.getContextID
        = QUERY_IN_PROGRESS
    ∧ (Technique.valid this t renderInfo ops).2.2
        = ops ++ [⟨if renderInfo.graphicsContext.hasGraphicsThread
                    then OperationQueue.graphicsThread
                    else OperationQueue.graphicsContext,
                  renderInfo.graphicsContext, ⟨this⟩⟩]
    ∧ ∀ c, c ≠ renderInfo.getContextID →
        (Technique.valid this t renderInfo ops).2.1.contextMap.read c
          = t.contextMap.read c := by
  rw [valid_of_unknown this t renderInfo ops hAlways hSlot]
  refine ⟨rfl, rfl, ?_, ?_, rfl, ?_⟩
  · simp [ContextMap.cas_fst, hSlot]
  · simp [ContextMap.read_cas, hSlot, compareAndSwap]
  · intro c hc
    simp [ContextMap.read_cas, hc]

theorem valid_unknown_schedules_witness :
    (Technique.valid 7 sampleTechnique ⟨⟨1, true⟩⟩ []).1 = QUERY_IN_PROGRESS
    ∧ (Technique.valid 7 sampleTechnique ⟨⟨1, true⟩⟩ []).2.1.contextMap
        = [⟨VALID⟩, ⟨QUERY_IN_PROGRESS⟩, ⟨INVALID⟩]
    ∧ (Technique.valid 7 sampleTechnique ⟨⟨1, true⟩⟩ []).2.2
        = [⟨OperationQueue.graphicsThread, ⟨1, true⟩, ⟨7⟩⟩] :=
  have h := valid_unknown_schedules 7 sampleTechnique ⟨⟨1, true⟩⟩ [] rfl (by decide)
  ⟨h.1, by rw [h.2.1]; decide, h.2.2.2.2.1⟩

/-- C4: on a technique not marked always-valid, whatever the slots held, the
call of `valid` that follows `refreshValidity` returns `QUERY_IN_PROGRESS`,
not `VALID` or `INVALID`, and appends one validation operation to the
queue. -/
theorem valid_after_refreshValidity {F : Type} (this : TechniquePtr) (t : Technique F)
    (renderInfo : RenderInfo) (ops : List QueuedOperation)
    (hAlways : t.alwaysValid = false) :
    (Technique.valid this t.refreshValidity renderInfo ops).1 = QUERY_IN_PROGRESS
    ∧ (Technique.valid this t.refreshValidity renderInfo ops).1 ≠ VALID
    ∧ (Technique.valid this t.refreshValidity renderInfo ops).1 ≠ INVALID
    ∧ (Technique.valid this t.refreshValidity renderInfo ops).2.2
        = ops ++ [scheduledOperation this renderInfo]
    ∧ (Technique.valid this t.refreshValidity renderInfo ops).2.1.contextMap.read
        renderInfo.getContextID = QUERY_IN_PROGRESS := by
  have hA : t.refreshValidity.alwaysValid = false := hAlways
  have hS : t.refreshValidity.contextMap.read renderInfo.getContextID = UNKNOWN :=
    ContextMap.read_resetAll _ _
  rw [valid_of_unknown this t.refreshValidity renderInfo ops hA hS]
  refine ⟨rfl, by simp, by simp, rfl, ?_⟩
  simp [ContextMap.read_cas, hS, compareAndSwap]

theorem valid_after_refreshValidity_witness :
    (Technique.valid 7 sampleTechnique.refreshValidity ⟨⟨0, false⟩⟩ []).1
        = QUERY_IN_PROGRESS
    ∧ (Technique.valid 7 sampleTechnique.refreshValidity ⟨⟨0, false⟩⟩ []).2.2
        = [⟨OperationQueue.graphicsContext, ⟨0, false⟩, ⟨7⟩⟩] :=
  have h := valid_after_refreshValidity 7 sampleTechnique ⟨⟨0, false⟩⟩ [] rfl
  ⟨h.1, h.2.2.2.1⟩

/-- C9: `releaseGLObjects` with a null state sets every existing slot to
`UNKNOWN` (and creates none); with a state of context `id` it sets slot `id`
to `UNKNOWN` and every other slot reads as before. On a technique not marked
always-valid the next `valid` on a slot so reset returns `QUERY_IN_PROGRESS`
and queues a validation operation. -/
theorem releaseGLObjects_resets {F : Type} (t : Technique F) :
    (t.releaseGLObjects none).contextMap.length = t.contextMap.length
    ∧ (∀ c, c < t.contextMap.length →
        (t.releaseGLObjects none).contextMap.get? c = some ⟨UNKNOWN⟩)
    ∧ (∀ id, (t.releaseGLObjects (some id)).contextMap.read id = UNKNOWN
        ∧ ∀ c, c ≠ id →
            (t.releaseGLObjects (some id)).contextMap.read c = t.contextMap.read c)
    ∧ (t.alwaysValid = false →
        ∀ (this : TechniquePtr) (renderInfo : RenderInfo) (ops : List QueuedOperation),
          (renderInfo.getContextID < t.contextMap.length →
            (Technique.valid this (t.releaseGLObjects none) renderInfo ops).1
                = QUERY_IN_PROGRESS
            ∧ (Technique.valid this (t.releaseGLObjects none) renderInfo ops).2.2
                = ops ++ [scheduledOperation this renderInfo])
          ∧ (Technique.valid this (t.releaseGLObjects (some renderInfo.getContextID))
                renderInfo ops).1 = QUERY_IN_PROGRESS
          ∧ (Technique.valid this (t.releaseGLObjects (some renderInfo.getContextID))
                renderInfo ops).2.2 = ops ++ [scheduledOperation this renderInfo]) := by
  have hsome : ∀ id, (t.releaseGLObjects (some id)).contextMap.read id = UNKNOWN := by
    intro id
    simp [Technique.releaseGLObjects, ContextMap.read_cas, ContextMap.read_access,
      compareAndSwap]
  refine ⟨ContextMap.length_resetAll _, fun c hc => ContextMap.get_resetAll _ c hc,
    fun id => ⟨hsome id, ?_⟩, ?_⟩
  · intro c hc
    simp [Technique.releaseGLObjects, ContextMap.read_cas, ContextMap.read_access, hc]
  · intro hAlways this renderInfo ops
    have h1 := valid_of_unknown this (t.releaseGLObjects none) renderInfo ops hAlways
      (ContextMap.read_resetAll _ _)
    have h2 := valid_of_unknown this (t.releaseGLObjects (some renderInfo.getContextID))
      renderInfo ops hAlways (hsome _)
    refine ⟨fun _ => ?_, ?_, ?_⟩
    · rw [h1]; exact ⟨rfl, rfl⟩
    · rw [h2]
    · rw [h2]

theorem releaseGLObjects_resets_witness :
    (sampleTechnique.releaseGLObjects none).contextMap
        = [⟨UNKNOWN⟩, ⟨UNKNOWN⟩, ⟨UNKNOWN⟩]
    ∧ (sampleTechnique.releaseGLObjects (some 2)).contextMap
        = [⟨VALID⟩, ⟨UNKNOWN⟩, ⟨UNKNOWN⟩]
    ∧ (Technique.valid 7 (sampleTechnique.releaseGLObjects (some 2)) ⟨⟨2, true⟩⟩ []).1
        = QUERY_IN_PROGRESS
    ∧ (Technique.valid 7 (sampleTechnique.releaseGLObjects none) ⟨⟨0, true⟩⟩ []).2.2
        = [scheduledOperation 7 ⟨⟨0, true⟩⟩] :=
  have h := (releaseGLObjects_resets sampleTechnique).2.2.2 rfl
  ⟨by decide, by decide, (h 7 ⟨⟨2, true⟩⟩ []).2.1,
    ((h 7 ⟨⟨0, true⟩⟩ []).1 (by decide)).2⟩

/-! ## The validation task -/

theorem validateInContext_eq {F : Type} (env : GLEnvironment F) (t : Technique F)
    (gc : GraphicsContext) (value : Bool)
    (hEval : t.evalValidExpression env gc.contextID = some value) :
    t.validateInContext env gc
      = some { t with contextMap :=
          (t.contextMap.cas gc.contextID (t.contextMap.read gc.contextID)
            (if value then VALID else INVALID)).2 } := by
  have h : ({ t with contextMap := t.contextMap.access gc.contextID } : Technique F).evalValidExpression
      env gc.contextID = some value := hEval
  simp only [Technique.validateInContext, Technique.validateInContextRead, h,
    Technique.validateInContextSwap, ContextMap.read_access]
  simp only [ContextMap.cas, ContextMap.read_access, ContextMap.access_access]

theorem extensionsExpression_foldl {F : Type} (contextExp : IntExpression)
    (extensions : List String) (acc : List (BoolExpression F)) :
    extensions.foldl
      (fun acc ext =>
        some (acc.getD [] ++ [BoolExpression.extensionSupported ext contextExp]))
      (some acc)
    = some (acc ++ extensions.map
        (fun ext => BoolExpression.extensionSupported ext contextExp)) := by
  induction extensions generalizing acc with
  | nil => simp
  | cons e rest ih =>
    simp only [List.foldl_cons, Option.getD_some, List.map_cons]
    rw [ih]
    simp

theorem extensionsExpression_nil {F : Type} (contextExp : IntExpression) :
    extensionsExpression contextExp [] = (none : Option (List (BoolExpression F))) := rfl

theorem extensionsExpression_cons {F : Type} (contextExp : IntExpression)
    (e : String) (rest : List String) :
    extensionsExpression contextExp (e :: rest)
      = (some ((e :: rest).map
          (fun ext => BoolExpression.extensionSupported ext contextExp)) :
            Option (List (BoolExpression F))) := by
  simp only [extensionsExpression, List.foldl_cons, Option.getD_none, List.nil_append]
  rw [extensionsExpression_foldl]
  simp

theorem evalAnd_extensionSupported {F : Type} (env : GLEnvironment F) (contextId : Nat)
    (extensions : List String) :
    BoolExpression.evalAnd env [contextId]
        (extensions.map
          (fun ext => BoolExpression.extensionSupported ext (IntExpression.variable 0)))
      = some (extensions.all (env.isGLExtensionSupported contextId)) := by
  induction extensions with
  | nil => simp [BoolExpression.evalAnd]
  | cons e rest ih =>
    simp only [List.map_cons, BoolExpression.evalAnd, BoolExpression.getValue,
      IntExpression.getValue, List.all_cons]
    cases h : env.isGLExtensionSupported contextId e <;> simp [h, ih]

theorem FixedLengthBinding.bind_one_zero (v : Nat) :
    FixedLengthBinding.bind 1 0 v = some [v] := by
  simp [FixedLengthBinding.bind]

theorem setGLExtensionsPred_contextIdLocation {F : Type} (t : Technique F)
    (minVersion : F) (extensions : List String) :
    (t.setGLExtensionsPred minVersion extensions).contextIdLocation = 0 := by
  simp [Technique.setGLExtensionsPred, Technique.setValidExpression,
    BindingLayout.addBinding, BindingLayout.findBinding]

theorem setGLExtensionsPred_validExpression {F : Type} (t : Technique F)
    (minVersion : F) (extensions : List String) :
    (t.setGLExtensionsPred minVersion extensions).validExpression
      = some (match extensions with
          | [] => BoolExpression.lessEqual (FloatExpression.const minVersion)
                    FloatExpression.glVersion
          | e :: rest =>
              BoolExpression.or
                [BoolExpression.lessEqual (FloatExpression.const minVersion)
                    FloatExpression.glVersion,
                  BoolExpression.and ((e :: rest).map
                    (fun ext =>
                      BoolExpression.extensionSupported ext (IntExpression.variable 0)))]) := by
  cases extensions with
  | nil =>
    simp [Technique.setGLExtensionsPred, Technique.setValidExpression,
      BindingLayout.addBinding, BindingLayout.findBinding, extensionsExpression_nil]
  | cons e rest =>
    simp [Technique.setGLExtensionsPred, Technique.setValidExpression,
      BindingLayout.addBinding, BindingLayout.findBinding, extensionsExpression_cons]

/-- The value of the predicate that `setGLExtensionsPred` installs. -/
theorem evalValidExpression_setGLExtensionsPred {F : Type} (env : GLEnvironment F)
    (t : Technique F) (minVersion : F) (extensions : List String) (contextId : Nat) :
    (t.setGLExtensionsPred minVersion extensions).evalValidExpression env contextId
      = some (env.lessEqual minVersion env.getGLVersionNumber
          || (!extensions.isEmpty
              && extensions.all (env.isGLExtensionSupported contextId))) := by
  unfold Technique.evalValidExpression
  rw [setGLExtensionsPred_validExpression, setGLExtensionsPred_contextIdLocation,
    FixedLengthBinding.bind_one_zero]
  cases extensions with
  | nil => simp [BoolExpression.getValue, FloatExpression.getValue]
  | cons e rest =>
    have hand := evalAnd_extensionSupported env contextId (e :: rest)
    simp only [BoolExpression.getValue, FloatExpression.getValue, BoolExpression.evalOr]
    rw [hand]
    cases env.lessEqual minVersion env.getGLVersionNumber <;>
      cases (e :: rest).all (env.isGLExtensionSupported contextId) <;> simp

theorem setGLExtensionsPred_contextMap {F : Type} (t : Technique F)
    (minVersion : F) (extensions : List String) :
    (t.setGLExtensionsPred minVersion extensions).contextMap = t.contextMap := by
  simp [Technique.setGLExtensionsPred, Technique.setValidExpression,
    BindingLayout.addBinding, BindingLayout.findBinding]

/-- C5: for a technique configured by `setGLExtensionsPred minVersion
extensions` and a context whose slot is `QUERY_IN_PROGRESS`, the validation
task swaps the slot from `QUERY_IN_PROGRESS` to `VALID` when
`minVersion <= version` or the extension list is non-empty and all of it is
supported on the context, and to `INVALID` otherwise; with an empty list the
slot ends `VALID` exactly when `minVersion <= version`. The context id is
bound at the recorded location, which is slot 0 of the one-element binding. -/
theorem validateInContext_setGLExtensionsPred {F : Type} (env : GLEnvironment F)
    (t : Technique F) (minVersion : F) (extensions : List String) (gc : GraphicsContext)
    (hSlot : (t.setGLExtensionsPred minVersion extensions).contextMap.read gc.contextID
      = QUERY_IN_PROGRESS) :
    (t.setGLExtensionsPred minVersion extensions).contextIdLocation = 0
    ∧ FixedLengthBinding.bind 1
        (t.setGLExtensionsPred minVersion extensions).contextIdLocation gc.contextID
        = some [gc.contextID]
    ∧ ∃ t2, (t.setGLExtensionsPred minVersion extensions).validateInContext env gc = some t2
        ∧ t2.contextMap
            = (t.contextMap.cas gc.contextID QUERY_IN_PROGRESS
                (if (env.lessEqual minVersion env.getGLVersionNumber
                      || (!extensions.isEmpty
                          && extensions.all (env.isGLExtensionSupported gc.contextID)))
                  then VALID else INVALID)).2
        ∧ t2.contextMap.read gc.contextID
            = (if (env.lessEqual minVersion env.getGLVersionNumber
                    || (!extensions.isEmpty
                        && extensions.all (env.isGLExtensionSupported gc.contextID)))
                then VALID else INVALID)
        ∧ (extensions = [] →
            (t2.contextMap.read gc.contextID = VALID
              ↔ env.lessEqual minVersion env.getGLVersionNumber = true))
        ∧ ∀ c, c ≠ gc.contextID → t2.contextMap.read c = t.contextMap.read c := by
  have hloc := setGLExtensionsPred_contextIdLocation t minVersion extensions
  have hmap := setGLExtensionsPred_contextMap t minVersion extensions
  have hrun := validateInContext_eq env (t.setGLExtensionsPred minVersion extensions) gc _
    (evalValidExpression_setGLExtensionsPred env t minVersion extensions gc.contextID)
  refine ⟨hloc, by rw [hloc, FixedLengthBinding.bind_one_zero], _, hrun, ?_, ?_, ?_, ?_⟩
  · show ((t.setGLExtensionsPred minVersion extensions).contextMap.cas _ _ _).2 = _
    rw [hSlot, hmap]
  · show (((t.setGLExtensionsPred minVersion extensions).contextMap.cas _ _ _).2).read _ = _
    rw [ContextMap.read_cas_self]
    simp
  · intro hnil
    show (((t.setGLExtensionsPred minVersion extensions).contextMap.cas _ _ _).2).read _
      = VALID ↔ _
    rw [ContextMap.read_cas_self]
    subst hnil
    cases env.lessEqual minVersion env.getGLVersionNumber <;> simp
  · intro c hc
    show (((t.setGLExtensionsPred minVersion extensions).contextMap.cas _ _ _).2).read _ = _
    rw [ContextMap.read_cas_self, hmap]
    simp [hc]

theorem validateInContext_setGLExtensionsPred_witness :
    (∃ t2, (sampleInProgress.setGLExtensionsPred 5 []).validateInContext
              (sampleEnvironment 5 []) ⟨0, true⟩ = some t2
        ∧ t2.contextMap.read 0 = VALID)
    ∧ (∃ t2, (sampleInProgress.setGLExtensionsPred 5 []).validateInContext
              (sampleEnvironment (49 / 10) []) ⟨0, true⟩ = some t2
        ∧ t2.contextMap.read 0 = INVALID)
    ∧ (∃ t2, (sampleInProgress.setGLExtensionsPred 5 ["GL_X"]).validateInContext
              (sampleEnvironment 6 []) ⟨0, true⟩ = some t2
        ∧ t2.contextMap.read 0 = VALID)
    ∧ (∃ t2, (sampleInProgress.setGLExtensionsPred 5 ["GL_X"]).validateInContext
              (sampleEnvironment 4 [0]) ⟨0, true⟩ = some t2
        ∧ t2.contextMap.read 0 = VALID)
    ∧ (∃ t2, (sampleInProgress.setGLExtensionsPred 5 ["GL_X"]).validateInContext
              (sampleEnvironment 4 []) ⟨0, true⟩ = some t2
        ∧ t2.contextMap.read 0 = INVALID) := by
  have hq : ∀ (v : ℚ) (exts : List String),
      (sampleInProgress.setGLExtensionsPred v exts).contextMap.read 0 = QUERY_IN_PROGRESS := by
    intro v exts
    rw [setGLExtensionsPred_contextMap]
    decide
  refine ⟨?_, ?_, ?_, ?_, ?_⟩
  · obtain ⟨_, _, t2, h1, _, h2, _⟩ := validateInContext_setGLExtensionsPred
      (sampleEnvironment 5 []) sampleInProgress 5 [] ⟨0, true⟩ (hq _ _)
    exact ⟨t2, h1, by rw [h2]; simp [sampleEnvironment]⟩
  · obtain ⟨_, _, t2, h1, _, h2, _⟩ := validateInContext_setGLExtensionsPred
      (sampleEnvironment (49 / 10) []) sampleInProgress 5 [] ⟨0, true⟩ (hq _ _)
    exact ⟨t2, h1, by rw [h2]; norm_num [sampleEnvironment]⟩
  · obtain ⟨_, _, t2, h1, _, h2, _⟩ := validateInContext_setGLExtensionsPred
      (sampleEnvironment 6 []) sampleInProgress 5 ["GL_X"] ⟨0, true⟩ (hq _ _)
    exact ⟨t2, h1, by rw [h2]; norm_num [sampleEnvironment]⟩
  · obtain ⟨_, _, t2, h1, _, h2, _⟩ := validateInContext_setGLExtensionsPred
      (sampleEnvironment 4 [0]) sampleInProgress 5 ["GL_X"] ⟨0, true⟩ (hq _ _)
    exact ⟨t2, h1, by rw [h2]; norm_num [sampleEnvironment]⟩
  · obtain ⟨_, _, t2, h1, _, h2, _⟩ := validateInContext_setGLExtensionsPred
      (sampleEnvironment 4 []) sampleInProgress 5 ["GL_X"] ⟨0, true⟩ (hq _ _)
    exact ⟨t2, h1, by rw [h2]; norm_num [sampleEnvironment]⟩

/-- C1 fails as stated: with slot 0 at `UNKNOWN`, not `QUERY_IN_PROGRESS`,
when the task runs, `validateInContext` does not leave the slot alone but
stores `VALID` in it; the next `valid` then returns that `VALID` and queues
nothing. -/
theorem validateInContext_unknown_counterexample :
    sampleStale.contextMap.read 0 = UNKNOWN
    ∧ sampleStale.contextMap.read 0 ≠ QUERY_IN_PROGRESS
    ∧ ∃ t2, sampleStale.validateInContext (sampleEnvironment 6 []) ⟨0, true⟩ = some t2
        ∧ t2.contextMap.read 0 = VALID
        ∧ t2.contextMap.read 0 ≠ sampleStale.contextMap.read 0
        ∧ (Technique.valid 7 t2 ⟨⟨0, true⟩⟩ []).1 = VALID
        ∧ (Technique.valid 7 t2 ⟨⟨0, true⟩⟩ []).2.2 = [] := by
  have hm : sampleStale.contextMap = [⟨UNKNOWN⟩] := setGLExtensionsPred_contextMap _ _ _
  have hr : sampleStale.contextMap.read 0 = UNKNOWN := by rw [hm]; decide
  have hev : sampleStale.evalValidExpression (sampleEnvironment 6 []) 0 = some true := by
    unfold sampleStale
    rw [evalValidExpression_setGLExtensionsPred]
    norm_num [sampleEnvironment]
  have hrun := validateInContext_eq (sampleEnvironment 6 []) sampleStale ⟨0, true⟩ true hev
  have hv : ∀ t2 : Technique ℚ, t2.alwaysValid = false → t2.contextMap.read 0 = VALID →
      Technique.valid 7 t2 ⟨⟨0, true⟩⟩ [] = (VALID, { t2 with contextMap := t2.contextMap.access 0 }, []) := by
    intro t2 ha hs
    have h := valid_of_known 7 t2 ⟨⟨0, true⟩⟩ [] ha (by
      show t2.contextMap.read 0 ≠ UNKNOWN
      rw [hs]; decide)
    rw [h]
    show (t2.contextMap.read 0, _, _) = _
    rw [hs]
    rfl
  refine ⟨hr, by rw [hr]; decide, _, hrun, ?_, ?_, ?_, ?_⟩
  · show ((sampleStale.contextMap.cas 0 _ _).2).read 0 = VALID
    rw [ContextMap.read_cas_self]; rfl
  · show ((sampleStale.contextMap.cas 0 _ _).2).read 0 ≠ _
    rw [ContextMap.read_cas_self, hr]; decide
  · rw [hv _ rfl (by
      show ((sampleStale.contextMap.cas 0 _ _).2).read 0 = VALID
      rw [ContextMap.read_cas_self]; rfl)]
  · rw [hv _ rfl (by
      show ((sampleStale.contextMap.cas 0 _ _).2).read 0 = VALID
      rw [ContextMap.read_cas_self]; rfl)]

/-- C1 (amended): the validation task compares against the status it reads
itself when it starts, not against `QUERY_IN_PROGRESS`. Run without
interference it stores its result in the slot of its context whatever that
slot held, and leaves the other slots as they were. Its result is discarded
exactly when the slot no longer holds the value the task read by the time of
the compare-and-swap: then every slot stays as the other actor left it. -/
theorem validateInContext_swaps_from_observed {F : Type} (env : GLEnvironment F)
    (t : Technique F) (gc : GraphicsContext) (value : Bool)
    (hEval : t.evalValidExpression env gc.contextID = some value) :
    (t.validateInContextRead gc).1 = t.contextMap.read gc.contextID
    ∧ (∃ t2, t.validateInContext env gc = some t2
        ∧ t2.contextMap.read gc.contextID = (if value then VALID else INVALID)
        ∧ ∀ c, c ≠ gc.contextID → t2.contextMap.read c = t.contextMap.read c)
    ∧ ∀ between : Technique F,
        (between.contextMap.read gc.contextID ≠ (t.validateInContextRead gc).1 →
          ∀ c, (between.validateInContextSwap gc (t.validateInContextRead gc).1
                  value).contextMap.read c = between.contextMap.read c)
        ∧ (between.contextMap.read gc.contextID = (t.validateInContextRead gc).1 →
            (between.validateInContextSwap gc (t.validateInContextRead gc).1
                value).contextMap.read gc.contextID
              = (if value then VALID else INVALID)) := by
  have hread : (t.validateInContextRead gc).1 = t.contextMap.read gc.contextID := by
    simp [Technique.validateInContextRead, ContextMap.read_access]
  refine ⟨hread, ⟨_, validateInContext_eq env t gc value hEval, ?_, ?_⟩, ?_⟩
  · show ((t.contextMap.cas _ _ _).2).read _ = _
    rw [ContextMap.read_cas_self]; simp
  · intro c hc
    show ((t.contextMap.cas _ _ _).2).read _ = _
    rw [ContextMap.read_cas_self]; simp [hc]
  · intro between
    refine ⟨fun hne c => ?_, fun heq => ?_⟩
    · show ((between.contextMap.cas _ _ _).2).read c = _
      rw [ContextMap.read_cas]
      by_cases hc : c = gc.contextID
      · subst hc
        simp [compareAndSwap, hne]
      · simp [hc]
    · show ((between.contextMap.cas _ _ _).2).read _ = _
      rw [ContextMap.read_cas]
      simp [compareAndSwap, heq]

theorem validateInContext_swaps_from_observed_witness :
    sampleStale.evalValidExpression (sampleEnvironment 4 []) 0 = some false
    ∧ (∃ t2, sampleStale.validateInContext (sampleEnvironment 4 []) ⟨0, true⟩ = some t2
        ∧ t2.contextMap.read 0 = INVALID) := by
  have hev : sampleStale.evalValidExpression (sampleEnvironment 4 []) 0 = some false := by
    unfold sampleStale
    rw [evalValidExpression_setGLExtensionsPred]
    norm_num [sampleEnvironment]
  obtain ⟨_, ⟨t2, h1, h2, _⟩, _⟩ := validateInContext_swaps_from_observed
    (sampleEnvironment 4 []) sampleStale ⟨0, true⟩ false hev
  exact ⟨hev, t2, h1, h2⟩

/-! ## Drawable batching: what one call does -/

theorem computeDepths_eq {V M F : Type} (fm : FloatModel F) (cv : CullVisitor V M F)
    (isCullingActive : Bool) (drawables : List (Drawable V)) (end_ : Nat)
    (hEnd : end_ ≤ drawables.length) (remaining itr : Nat) (hItr : itr ≤ end_) :
    computeDepths fm cv isCullingActive drawables end_ remaining itr
      = some (itr + min (end_ - itr) remaining,
          ((drawables.drop itr).take (min (end_ - itr) remaining)).map
            (computeDepth fm cv isCullingActive)) := by
  induction remaining generalizing itr with
  | zero => simp [computeDepths]
  | succ k ih =>
    unfold computeDepths
    by_cases h : itr = end_
    · subst h
      simp
    · have hlt : itr < end_ := by omega
      have hlen : itr < drawables.length := by omega
      have hmin : min (end_ - itr) (k + 1) = min (end_ - (itr + 1)) k + 1 := by omega
      simp only [h, if_false, List.get?_eq_getElem?, List.getElem?_eq_getElem hlen,
        ih (itr + 1) (by omega), hmin]
      rw [List.drop_eq_getElem_cons hlen, List.take_succ_cons, List.map_cons]
      congr 2
      omega

theorem submitDrawables_eq {V M F : Type} [DecidableEq F] (fm : FloatModel F)
    (cv : CullVisitor V M F) (isCullingActive : Bool) (drawables : List (Drawable V))
    (k itr : Nat) (hk : itr + k ≤ drawables.length) :
    submitDrawables fm cv drawables itr
        (((drawables.drop itr).take k).map (computeDepth fm cv isCullingActive))
      = expectedSubmission fm cv isCullingActive ((drawables.drop itr).take k) := by
  induction k generalizing itr with
  | zero => simp [submitDrawables, expectedSubmission]
  | succ k ih =>
    have hlen : itr < drawables.length := by omega
    rw [List.drop_eq_getElem_cons hlen, List.take_succ_cons, List.map_cons]
    unfold submitDrawables
    rw [ih (itr + 1) (by omega)]
    simp only [expectedSubmission, List.get?_eq_getElem?, List.getElem?_eq_getElem hlen,
      List.filter_cons]
    by_cases hd : computeDepth fm cv isCullingActive drawables[itr] = fm.FLT_MAX
    · simp [hd]
    · simp [hd]

theorem submitPasses_eq {V M F : Type} [DecidableEq F] (fm : FloatModel F)
    (cv : CullVisitor V M F) (isCullingActive : Bool) (drawables : List (Drawable V))
    (k begin : Nat) (hk : begin + k ≤ drawables.length) (passes : List Pass) :
    submitPasses fm cv drawables begin
        (((drawables.drop begin).take k).map (computeDepth fm cv isCullingActive)) passes
      = expectedCalls fm cv isCullingActive ((drawables.drop begin).take k) passes := by
  induction passes with
  | nil => simp [submitPasses, expectedCalls]
  | cons p rest ih =>
    unfold submitPasses
    rw [ih, submitDrawables_eq fm cv isCullingActive drawables k begin hk]
    simp [expectedCalls, List.flatMap_cons]

/-- One call of `processDrawables` on a range inside the drawable list: the
position returned and the calls made. -/
theorem processDrawables_eq {V M F : Type} [DecidableEq F] (fm : FloatModel F)
    (t : Technique F) (drawables : List (Drawable V)) (begin end_ : Nat)
    (cv : CullVisitor V M F) (isCullingActive : Bool)
    (hBegin : begin ≤ end_) (hEnd : end_ ≤ drawables.length) :
    t.processDrawables fm drawables begin end_ cv isCullingActive
      = some (begin + min (end_ - begin) NUM_DRAWABLES,
          expectedCalls fm cv isCullingActive (batchItems drawables begin end_)
            t.passes) := by
  unfold Technique.processDrawables
  rw [computeDepths_eq fm cv isCullingActive drawables end_ hEnd NUM_DRAWABLES begin hBegin]
  simp only [batchItems]
  rw [submitPasses_eq fm cv isCullingActive drawables _ begin (by omega)]

theorem computeDepth_of_cullTest {V M F : Type} (fm : FloatModel F)
    (cv : CullVisitor V M F) (isCullingActive : Bool) (d : Drawable V)
    (h : cullTest cv isCullingActive d = true) :
    computeDepth fm cv isCullingActive d = fm.FLT_MAX := by
  simp [computeDepth, h]

theorem mem_expectedSubmission {V M F : Type} [DecidableEq F] (fm : FloatModel F)
    (cv : CullVisitor V M F) (isCullingActive : Bool) (items : List (Drawable V))
    (d : Drawable V) (m : M) (depth : F) :
    CullCall.addDrawableAndDepth d m depth ∈ expectedSubmission fm cv isCullingActive items
      ↔ d ∈ items ∧ computeDepth fm cv isCullingActive d ≠ fm.FLT_MAX
          ∧ m = cv.modelViewMatrix ∧ depth = computeDepth fm cv isCullingActive d := by
  simp only [expectedSubmission, List.mem_map, List.mem_filter, decide_eq_true_eq]
  constructor
  · rintro ⟨x, ⟨hx, hne⟩, heq⟩
    injection heq with h1 h2 h3
    subst h1
    exact ⟨hx, hne, h2.symm, h3.symm⟩
  · rintro ⟨hx, hne, hm, hdepth⟩
    exact ⟨d, ⟨hx, hne⟩, by rw [hm, hdepth]⟩

theorem mem_expectedCalls {V M F : Type} [DecidableEq F] (fm : FloatModel F)
    (cv : CullVisitor V M F) (isCullingActive : Bool) (items : List (Drawable V))
    (passes : List Pass) (d : Drawable V) (m : M) (depth : F)
    (h : CullCall.addDrawableAndDepth d m depth
      ∈ expectedCalls fm cv isCullingActive items passes) :
    CullCall.addDrawableAndDepth d m depth
      ∈ expectedSubmission fm cv isCullingActive items := by
  simp only [expectedCalls, List.mem_flatMap, List.mem_append, List.mem_singleton] at h
  obtain ⟨_, _, (h | h) | h⟩ := h
  · cases h
  · exact h
  · cases h

/-- C7: for a batch inside the drawable list, `processDrawables` returns, and
the calls it makes are, for each pass of the technique in pass order: push
the pass, then one `addDrawableAndDepth` for each batch item whose depth is
not `FLT_MAX`, in batch order, with the model-view matrix and that item's
depth, then pop. An item failing the cull test gets depth `FLT_MAX` and is
submitted in no pass. -/
theorem processDrawables_calls {V M F : Type} [DecidableEq F] (fm : FloatModel F)
    (t : Technique F) (drawables : List (Drawable V)) (begin end_ : Nat)
    (cv : CullVisitor V M F) (isCullingActive : Bool)
    (hBegin : begin ≤ end_) (hEnd : end_ ≤ drawables.length) :
    ∃ r, t.processDrawables fm drawables begin end_ cv isCullingActive = some r
      ∧ r.2 = t.passes.flatMap (fun pass =>
          [CullCall.pushStateSet pass]
          ++ ((batchItems drawables begin end_).filter
                (fun d => decide (computeDepth fm cv isCullingActive d ≠ fm.FLT_MAX))).map
              (fun d => CullCall.addDrawableAndDepth d cv.modelViewMatrix
                (computeDepth fm cv isCullingActive d))
          ++ [CullCall.popStateSet])
      ∧ ∀ d, cullTest cv isCullingActive d = true →
          computeDepth fm cv isCullingActive d = fm.FLT_MAX
          ∧ ∀ m depth, CullCall.addDrawableAndDepth d m depth ∉ r.2 := by
  refine ⟨_, processDrawables_eq fm t drawables begin end_ cv isCullingActive hBegin hEnd,
    rfl, fun d hd => ⟨computeDepth_of_cullTest fm cv isCullingActive d hd, ?_⟩⟩
  intro m depth hmem
  have h := mem_expectedCalls fm cv isCullingActive _ _ d m depth hmem
  rw [mem_expectedSubmission] at h
  exact h.2.1 (computeDepth_of_cullTest fm cv isCullingActive d hd)

/-- C6 (amended): an item of the batch whose bounding box is invalid and which
passes the cull test is given depth 0 and is submitted with the model-view
matrix and depth 0 between the push and the pop of every pass. -/
theorem processDrawables_invalid_bound {V M F : Type} [DecidableEq F]
    (fm : FloatModel F) (t : Technique F) (drawables : List (Drawable V))
    (begin end_ : Nat) (cv : CullVisitor V M F) (isCullingActive : Bool)
    (hBegin : begin ≤ end_) (hEnd : end_ ≤ drawables.length)
    (hZeroMax : fm.zero ≠ fm.FLT_MAX) (hZeroNaN : fm.isNaN fm.zero = false)
    (d : Drawable V) (hd : d ∈ batchItems drawables begin end_)
    (hInvalid : d.bound.valid = false)
    (hCull : cullTest cv isCullingActive d = false) :
    computeDepth fm cv isCullingActive d = fm.zero
    ∧ ∃ r submitted, t.processDrawables fm drawables begin end_ cv isCullingActive = some r
        ∧ r.2 = t.passes.flatMap (fun pass =>
            [CullCall.pushStateSet pass] ++ submitted ++ [CullCall.popStateSet])
        ∧ CullCall.addDrawableAndDepth d cv.modelViewMatrix fm.zero ∈ submitted := by
  have hdepth : computeDepth fm cv isCullingActive d = fm.zero := by
    simp [computeDepth, hCull, hInvalid, hZeroNaN]
  refine ⟨hdepth, _, expectedSubmission fm cv isCullingActive (batchItems drawables begin end_),
    processDrawables_eq fm t drawables begin end_ cv isCullingActive hBegin hEnd, rfl, ?_⟩
  rw [mem_expectedSubmission]
  exact ⟨hd, by rw [hdepth]; exact hZeroMax, rfl, hdepth.symm⟩

/-- C8: on a range of `n = end_ - begin` drawables, `processDrawables` returns
the position `begin + min n 128`, which is `end_` exactly when `n <= 128`; it
computes depths for the items from `begin` up to that position and for no
other, at most 128 of them, and submits only such items; calls repeated from
the returned position reach `end_`, and their batches put end to end are the
items of the range, each once and in order. -/
theorem processDrawables_returns {V M F : Type} [DecidableEq F] (fm : FloatModel F)
    (t : Technique F) (drawables : List (Drawable V)) (begin end_ : Nat)
    (cv : CullVisitor V M F) (isCullingActive : Bool)
    (hBegin : begin ≤ end_) (hEnd : end_ ≤ drawables.length) :
    (∃ calls, t.processDrawables fm drawables begin end_ cv isCullingActive
          = some (begin + min (end_ - begin) 128, calls)
        ∧ ∀ d m depth, CullCall.addDrawableAndDepth d m depth ∈ calls →
            d ∈ (drawables.drop begin).take (min (end_ - begin) 128))
    ∧ computeDepths fm cv isCullingActive drawables end_ NUM_DRAWABLES begin
        = some (begin + min (end_ - begin) 128,
            ((drawables.drop begin).take (min (end_ - begin) 128)).map
              (computeDepth fm cv isCullingActive))
    ∧ (begin + min (end_ - begin) 128 = end_ ↔ end_ - begin ≤ 128)
    ∧ (∀ k, positionAfter fm t drawables begin end_ cv isCullingActive k
          = some (begin + min (end_ - begin) (128 * k)))
    ∧ (∀ k, end_ - begin ≤ 128 * k →
          positionAfter fm t drawables begin end_ cv isCullingActive k = some end_)
    ∧ ∀ k, (List.range k).flatMap
            (fun j => batchItems drawables (begin + min (end_ - begin) (128 * j)) end_)
        = (drawables.drop begin).take (min (end_ - begin) (128 * k)) := by
  have hpos : ∀ k, positionAfter fm t drawables begin end_ cv isCullingActive k
      = some (begin + min (end_ - begin) (128 * k)) := by
    intro k
    induction k with
    | zero => simp [positionAfter]
    | succ k ih =>
      unfold positionAfter
      rw [ih]
      simp only
      rw [processDrawables_eq fm t drawables _ end_ cv isCullingActive (by omega) hEnd]
      simp only [NUM_DRAWABLES, Option.some.injEq]
      omega
  refine ⟨⟨_, processDrawables_eq fm t drawables begin end_ cv isCullingActive hBegin hEnd,
    ?_⟩, ?_, ?_, hpos, ?_, ?_⟩
  · intro d m depth hmem
    have h := mem_expectedCalls fm cv isCullingActive _ _ d m depth hmem
    rw [mem_expectedSubmission] at h
    exact h.1
  · exact computeDepths_eq fm cv isCullingActive drawables end_ hEnd NUM_DRAWABLES begin hBegin
  · omega
  · intro k hk
    rw [hpos k]
    congr 1
    omega
  · intro k
    induction k with
    | zero => simp
    | succ k ih =>
      rw [List.range_succ, List.flatMap_append, ih]
      simp only [List.flatMap_cons, List.flatMap_nil, List.append_nil, batchItems,
        NUM_DRAWABLES]
      have h1 : min (end_ - begin) (128 * (k + 1))
          = min (end_ - begin) (128 * k)
            + min (end_ - (begin + min (end_ - begin) (128 * k))) 128 := by omega
      rw [h1, List.take_add, List.drop_drop]

/-- C6 fails as stated: an item with an invalid bounding box whose cull
callback culls it gets depth `FLT_MAX`, not 0, and no pass submits it. -/
theorem processDrawables_invalid_bound_counterexample :
    culledDrawable.bound.valid = false
    ∧ computeDepth sampleFloats sampleVisitor false culledDrawable ≠ sampleFloats.zero
    ∧ sampleTwoPasses.processDrawables sampleFloats [culledDrawable] 0 1 sampleVisitor false
        = some (1, [CullCall.pushStateSet ⟨10⟩, CullCall.popStateSet,
                    CullCall.pushStateSet ⟨11⟩, CullCall.popStateSet]) := by
  refine ⟨rfl, ?_, ?_⟩
  · simp [computeDepth, cullTest, culledDrawable, sampleFloats]
  · simp [Technique.processDrawables, computeDepths, NUM_DRAWABLES, computeDepth, cullTest,
      culledDrawable, sampleFloats, submitPasses, submitDrawables, sampleTwoPasses,
      Technique.new]

theorem processDrawables_invalid_bound_witness :
    computeDepth sampleFloats sampleVisitor true unboundedDrawable = 0
    ∧ ∃ r submitted,
        sampleTwoPasses.processDrawables sampleFloats
            [boundedDrawable, culledDrawable, unboundedDrawable] 0 3 sampleVisitor true
          = some r
        ∧ r.2 = sampleTwoPasses.passes.flatMap (fun pass =>
            [CullCall.pushStateSet pass] ++ submitted ++ [CullCall.popStateSet])
        ∧ CullCall.addDrawableAndDepth unboundedDrawable 3 0 ∈ submitted :=
  processDrawables_invalid_bound sampleFloats sampleTwoPasses
    [boundedDrawable, culledDrawable, unboundedDrawable] 0 3 sampleVisitor true
    (by decide) (by decide) (by norm_num [sampleFloats]) rfl unboundedDrawable
    (by simp [batchItems, NUM_DRAWABLES]) rfl
    (by simp [cullTest, unboundedDrawable, sampleVisitor])

theorem processDrawables_calls_witness :
    ∃ r, sampleTwoPasses.processDrawables sampleFloats
            [boundedDrawable, culledDrawable, unboundedDrawable] 0 3 sampleVisitor true
          = some r
      ∧ r.2 = [CullCall.pushStateSet ⟨10⟩,
                CullCall.addDrawableAndDepth boundedDrawable 3 2,
                CullCall.addDrawableAndDepth unboundedDrawable 3 0,
                CullCall.popStateSet,
                CullCall.pushStateSet ⟨11⟩,
                CullCall.addDrawableAndDepth boundedDrawable 3 2,
                CullCall.addDrawableAndDepth unboundedDrawable 3 0,
                CullCall.popStateSet] := by
  obtain ⟨r, h1, h2, _⟩ := processDrawables_calls sampleFloats sampleTwoPasses
    [boundedDrawable, culledDrawable, unboundedDrawable] 0 3 sampleVisitor true
    (by decide) (by decide)
  refine ⟨r, h1, ?_⟩
  rw [h2]
  norm_num [batchItems, NUM_DRAWABLES, computeDepth, cullTest, boundedDrawable,
    culledDrawable, unboundedDrawable, sampleFloats, sampleVisitor, sampleTwoPasses,
    Technique.new]

theorem processDrawables_returns_witness :
    (∃ calls, sampleTwoPasses.processDrawables sampleFloats
          (List.replicate 300 boundedDrawable) 20 300 sampleVisitor true
        = some (148, calls))
    ∧ positionAfter sampleFloats sampleTwoPasses (List.replicate 300 boundedDrawable)
        20 300 sampleVisitor true 3 = some 300 := by
  obtain ⟨⟨calls, h1, _⟩, _, _, _, h2, _⟩ := processDrawables_returns sampleFloats
    sampleTwoPasses (List.replicate 300 boundedDrawable) 20 300 sampleVisitor true
    (by decide) (by rw [List.length_replicate])
  exact ⟨⟨calls, h1⟩, h2 3 (by decide)⟩

/-! ## Concurrent calls of `valid` -/

theorem ValidCall.consistent_mono {slot slot2 : Status} {call : ValidCall}
    (h : call.consistent slot) (hmono : slot ≠ UNKNOWN → slot2 ≠ UNKNOWN) :
    call.consistent slot2 := by
  cases call with
  | start => trivial
  | swap status => exact h
  | reread => exact hmono h
  | schedule => exact hmono h
  | done result scheduled => exact ⟨hmono h.1, h.2⟩

theorem validStep_start_known {F : Type} (this : TechniquePtr) (renderInfo : RenderInfo)
    (t : Technique F) (ops : List QueuedOperation) (ha : t.alwaysValid = false)
    (h : t.contextMap.read renderInfo.getContextID ≠ UNKNOWN) :
    Technique.validStep this renderInfo ValidCall.start t ops
      = (ValidCall.done (t.contextMap.read renderInfo.getContextID) false,
          { t with contextMap := t.contextMap.access renderInfo.getContextID }, ops) := by
  simp [Technique.validStep, ha, ContextMap.read_access, h]

theorem validStep_start_unknown {F : Type} (this : TechniquePtr) (renderInfo : RenderInfo)
    (t : Technique F) (ops : List QueuedOperation) (ha : t.alwaysValid = false)
    (h : t.contextMap.read renderInfo.getContextID = UNKNOWN) :
    Technique.validStep this renderInfo ValidCall.start t ops
      = (ValidCall.swap UNKNOWN,
          { t with contextMap := t.contextMap.access renderInfo.getContextID }, ops) := by
  simp [Technique.validStep, ha, ContextMap.read_access, h]

theorem validStep_swap_won {F : Type} (this : TechniquePtr) (renderInfo : RenderInfo)
    (t : Technique F) (ops : List QueuedOperation)
    (h : t.contextMap.read renderInfo.getContextID = UNKNOWN) :
    Technique.validStep this renderInfo (ValidCall.swap UNKNOWN) t ops
      = (ValidCall.schedule,
          { t with contextMap :=
              (t.contextMap.cas renderInfo.getContextID UNKNOWN QUERY_IN_PROGRESS).2 },
          ops) := by
  simp [Technique.validStep, ContextMap.cas_fst, h]

theorem validStep_swap_lost {F : Type} (this : TechniquePtr) (renderInfo : RenderInfo)
    (t : Technique F) (ops : List QueuedOperation)
    (h : t.contextMap.read renderInfo.getContextID ≠ UNKNOWN) :
    Technique.validStep this renderInfo (ValidCall.swap UNKNOWN) t ops
      = (ValidCall.reread,
          { t with contextMap :=
              (t.contextMap.cas renderInfo.getContextID UNKNOWN QUERY_IN_PROGRESS).2 },
          ops) := by
  simp [Technique.validStep, ContextMap.cas_fst, h]

theorem validStep_schedule {F : Type} (this : TechniquePtr) (renderInfo : RenderInfo)
    (t : Technique F) (ops : List QueuedOperation) :
    Technique.validStep this renderInfo ValidCall.schedule t ops
      = (ValidCall.done QUERY_IN_PROGRESS true, t,
          ops ++ [scheduledOperation this renderInfo]) := by
  simp only [Technique.validStep, scheduledOperation]
  cases renderInfo.graphicsContext.hasGraphicsThread <;> simp

theorem forall_mem_set {α : Type} {P : α → Prop} {l : List α} {i : Nat} {a : α}
    (hl : ∀ x ∈ l, P x) (ha : P a) : ∀ x ∈ l.set i a, P x := by
  intro x hx
  rcases List.mem_or_eq_of_mem_set hx with h | h
  · exact hl x h
  · rw [h]; exact ha

/-- The sequential function `valid` is the three atomic steps run back to
back. -/
theorem valid_eq_validStep {F : Type} (this : TechniquePtr) (renderInfo : RenderInfo)
    (t : Technique F) (ops : List QueuedOperation) :
    ∃ scheduled,
      (let s1 := Technique.validStep this renderInfo ValidCall.start t ops
       let s2 := Technique.validStep this renderInfo s1.1 s1.2.1 s1.2.2
       Technique.validStep this renderInfo s2.1 s2.2.1 s2.2.2)
      = (ValidCall.done (Technique.valid this t renderInfo ops).1 scheduled,
          (Technique.valid this t renderInfo ops).2.1,
          (Technique.valid this t renderInfo ops).2.2) := by
  cases ha : t.alwaysValid with
  | true =>
    refine ⟨false, ?_⟩
    simp [Technique.validStep, Technique.valid, ha]
  | false =>
    by_cases h : t.contextMap.read renderInfo.getContextID = UNKNOWN
    · refine ⟨true, ?_⟩
      rw [valid_of_unknown this t renderInfo ops ha h]
      simp only [validStep_start_unknown this renderInfo t ops ha h]
      rw [validStep_swap_won this renderInfo _ ops (by
        show (t.contextMap.access _).read _ = UNKNOWN
        rw [ContextMap.read_access]; exact h)]
      simp only [validStep_schedule]
      simp only [ContextMap.cas, ContextMap.read_access, ContextMap.access_access]
    · refine ⟨false, ?_⟩
      rw [valid_of_known this t renderInfo ops ha h]
      simp only [validStep_start_known this renderInfo t ops ha h]
      simp [Technique.validStep]

theorem countP_set_same {α : Type} (p : α → Bool) (l : List α) (i : Nat) (a : α)
    (hi : i < l.length) (h : p a = p l[i]) :
    (l.set i a).countP p = l.countP p := by
  induction l generalizing i with
  | nil => simp at hi
  | cons x xs ih =>
    cases i with
    | zero =>
      simp only [List.getElem_cons_zero] at h
      simp [List.set, List.countP_cons, h]
    | succ j =>
      simp only [List.getElem_cons_succ] at h
      simp only [List.set, List.countP_cons]
      rw [ih j (by simpa using hi) h]

theorem countP_set_gain {α : Type} (p : α → Bool) (l : List α) (i : Nat) (a : α)
    (hi : i < l.length) (h1 : p l[i] = false) (h2 : p a = true) :
    (l.set i a).countP p = l.countP p + 1 := by
  induction l generalizing i with
  | nil => simp at hi
  | cons x xs ih =>
    cases i with
    | zero =>
      simp only [List.getElem_cons_zero] at h1
      simp [List.set, List.countP_cons, h1, h2]
    | succ j =>
      simp only [List.getElem_cons_succ] at h1
      simp only [List.set, List.countP_cons]
      rw [ih j (by simpa using hi) h1]
      omega

theorem set_getElem_same {α : Type} (l : List α) (i : Nat) (hi : i < l.length) :
    l.set i l[i] = l := by
  induction l generalizing i with
  | nil => simp at hi
  | cons x xs ih =>
    cases i with
    | zero => simp [List.set]
    | succ j =>
      simp only [List.set, List.getElem_cons_succ]
      rw [ih j (by simpa using hi)]

theorem System.step_call {F : Type} (this : TechniquePtr) (renderInfo : RenderInfo)
    (s : System F) (i : Nat) (call : ValidCall) (hget : s.calls[i]? = some call) :
    System.step this renderInfo s (Action.call i)
      = { s with
          technique := (Technique.validStep this renderInfo call s.technique s.ops).2.1,
          ops := (Technique.validStep this renderInfo call s.technique s.ops).2.2,
          calls := s.calls.set i
            (Technique.validStep this renderInfo call s.technique s.ops).1 } := by
  simp [System.step, hget]

/-- Every atomic step keeps the invariant. -/
theorem System.Invariant.step {F : Type} {this : TechniquePtr} {renderInfo : RenderInfo}
    {s : System F} (inv : s.Invariant this renderInfo) (a : Action) :
    (System.step this renderInfo s a).Invariant this renderInfo := by
  cases a with
  | call i =>
    cases hget : s.calls[i]? with
    | none =>
      have : System.step this renderInfo s (Action.call i) = s := by
        simp [System.step, hget]
      rw [this]; exact inv
    | some call =>
      obtain ⟨hi, hci⟩ := List.getElem?_eq_some.mp hget
      have hmem : call ∈ s.calls := hci ▸ List.getElem_mem hi
      have hcons := inv.consistent call hmem
      rw [System.step_call this renderInfo s i call hget]
      cases call with
      | start =>
        by_cases h : s.technique.contextMap.read renderInfo.getContextID = UNKNOWN
        · rw [validStep_start_unknown this renderInfo _ _ inv.notAlways h]
          have hw := countP_set_same ValidCall.hasWon s.calls i (ValidCall.swap UNKNOWN) hi
            (by rw [hci]; rfl)
          have hs := countP_set_same ValidCall.hasScheduled s.calls i (ValidCall.swap UNKNOWN)
            hi (by rw [hci]; rfl)
          refine ⟨inv.notAlways, ?_, ?_, ?_, ?_⟩
          · simp only [ContextMap.read_access]
            exact forall_mem_set inv.consistent rfl
          · simp only [ContextMap.read_access]
            intro hu
            rw [hw]; exact inv.unknown hu
          · simp only [ContextMap.read_access]
            intro hk
            rw [hw]; exact inv.known hk
          · simp only
            rw [hs]; exact inv.queued
        · rw [validStep_start_known this renderInfo _ _ inv.notAlways h]
          have hw := countP_set_same ValidCall.hasWon s.calls i
            (ValidCall.done (s.technique.contextMap.read renderInfo.getContextID) false) hi
            (by rw [hci]; rfl)
          have hs := countP_set_same ValidCall.hasScheduled s.calls i
            (ValidCall.done (s.technique.contextMap.read renderInfo.getContextID) false) hi
            (by rw [hci]; rfl)
          refine ⟨inv.notAlways, ?_, ?_, ?_, ?_⟩
          · simp only [ContextMap.read_access]
            exact forall_mem_set inv.consistent ⟨h, h, by simp⟩
          · simp only [ContextMap.read_access]
            intro hu
            exact absurd hu h
          · simp only [ContextMap.read_access]
            intro hk
            rw [hw]; exact inv.known hk
          · simp only
            rw [hs]; exact inv.queued
      | swap status =>
        have hst : status = UNKNOWN := hcons
        subst hst
        by_cases h : s.technique.contextMap.read renderInfo.getContextID = UNKNOWN
        · rw [validStep_swap_won this renderInfo _ _ h]
          have hw := countP_set_gain ValidCall.hasWon s.calls i ValidCall.schedule hi
            (by rw [hci]; rfl) rfl
          have hs := countP_set_same ValidCall.hasScheduled s.calls i ValidCall.schedule
            hi (by rw [hci]; rfl)
          have hslot : ((s.technique.contextMap.cas renderInfo.getContextID UNKNOWN
              QUERY_IN_PROGRESS).2).read renderInfo.getContextID = QUERY_IN_PROGRESS := by
            simp [ContextMap.read_cas, compareAndSwap, h]
          refine ⟨inv.notAlways, ?_, ?_, ?_, ?_⟩
          · simp only [hslot]
            refine forall_mem_set (fun x hx => ?_) (by simp [ValidCall.consistent])
            exact ValidCall.consistent_mono (inv.consistent x hx) (fun _ => by simp)
          · simp only [hslot]
            intro hu
            exact absurd hu (by simp)
          · simp only [hslot]
            intro _
            rw [hw, (inv.unknown h).1]
          · simp only
            rw [hs]; exact inv.queued
        · rw [validStep_swap_lost this renderInfo _ _ h]
          have hw := countP_set_same ValidCall.hasWon s.calls i ValidCall.reread hi
            (by rw [hci]; rfl)
          have hs := countP_set_same ValidCall.hasScheduled s.calls i ValidCall.reread
            hi (by rw [hci]; rfl)
          have hslot : ((s.technique.contextMap.cas renderInfo.getContextID UNKNOWN
              QUERY_IN_PROGRESS).2).read renderInfo.getContextID
              = s.technique.contextMap.read renderInfo.getContextID := by
            simp [ContextMap.read_cas, compareAndSwap, h]
          refine ⟨inv.notAlways, ?_, ?_, ?_, ?_⟩
          · simp only [hslot]
            exact forall_mem_set inv.consistent h
          · simp only [hslot]
            intro hu
            exact absurd hu h
          · simp only [hslot]
            intro hk
            rw [hw]; exact inv.known hk
          · simp only
            rw [hs]; exact inv.queued
      | reread =>
        have h : s.technique.contextMap.read renderInfo.getContextID ≠ UNKNOWN := hcons
        have hw := countP_set_same ValidCall.hasWon s.calls i
          (ValidCall.done (s.technique.contextMap.read renderInfo.getContextID) false) hi
          (by rw [hci]; rfl)
        have hs := countP_set_same ValidCall.hasScheduled s.calls i
          (ValidCall.done (s.technique.contextMap.read renderInfo.getContextID) false) hi
          (by rw [hci]; rfl)
        simp only [Technique.validStep]
        refine ⟨inv.notAlways, ?_, ?_, ?_, ?_⟩
        · exact forall_mem_set inv.consistent ⟨h, h, by simp⟩
        · intro hu
          exact absurd hu h
        · intro hk
          simp only
          rw [hw]; exact inv.known hk
        · simp only
          rw [hs]; exact inv.queued
      | schedule =>
        have h : s.technique.contextMap.read renderInfo.getContextID ≠ UNKNOWN := hcons
        rw [validStep_schedule]
        have hw := countP_set_same ValidCall.hasWon s.calls i
          (ValidCall.done QUERY_IN_PROGRESS true) hi (by rw [hci]; rfl)
        have hs := countP_set_gain ValidCall.hasScheduled s.calls i
          (ValidCall.done QUERY_IN_PROGRESS true) hi (by rw [hci]; rfl) rfl
        refine ⟨inv.notAlways, ?_, ?_, ?_, ?_⟩
        · exact forall_mem_set inv.consistent ⟨h, by simp, fun _ => rfl⟩
        · intro hu
          exact absurd hu h
        · intro hk
          simp only
          rw [hw]; exact inv.known hk
        · simp only
          rw [hs, List.replicate_succ', ← inv.queued]
      | done result scheduled =>
        have hsame : s.calls.set i (ValidCall.done result scheduled) = s.calls := by
          rw [← hci]; exact set_getElem_same s.calls i hi
        simp only [Technique.validStep, hsame]
        exact inv
  | taskRead =>
    cases hw : s.worker with
    | some w =>
      have : System.step this renderInfo s Action.taskRead = s := by
        simp [System.step, hw]
      rw [this]; exact inv
    | none =>
      cases hop : s.ops[s.started]? with
      | none =>
        have : System.step this renderInfo s Action.taskRead = s := by
          simp [System.step, hw, hop]
        rw [this]; exact inv
      | some op =>
        have hstep : System.step this renderInfo s Action.taskRead
            = { s with technique := (s.technique.validateInContextRead op.context).2,
                       started := s.started + 1,
                       worker := some (op.context,
                         (s.technique.validateInContextRead op.context).1) } := by
          simp [System.step, hw, hop]
        rw [hstep]
        have hne : s.ops ≠ [] := by
          intro h
          rw [h] at hop
          simp at hop
        have hk : s.technique.contextMap.read renderInfo.getContextID ≠ UNKNOWN :=
          fun hu => hne (inv.unknown hu).2.1
        refine ⟨inv.notAlways, ?_, ?_, ?_, inv.queued⟩
        · simp only [Technique.validateInContextRead, ContextMap.read_access]
          exact inv.consistent
        · simp only [Technique.validateInContextRead, ContextMap.read_access]
          intro hu
          exact absurd hu hk
        · simp only [Technique.validateInContextRead, ContextMap.read_access]
          exact inv.known
  | taskSwap value =>
    cases hw : s.worker with
    | none =>
      have : System.step this renderInfo s (Action.taskSwap value) = s := by
        simp [System.step, hw]
      rw [this]; exact inv
    | some w =>
      obtain ⟨gc, oldVal⟩ := w
      have hstep : System.step this renderInfo s (Action.taskSwap value)
          = { s with technique := s.technique.validateInContextSwap gc oldVal value,
                     worker := none } := by
        simp [System.step, hw]
      rw [hstep]
      have hk : s.technique.contextMap.read renderInfo.getContextID ≠ UNKNOWN := by
        intro hu
        have := (inv.unknown hu).2.2
        rw [hw] at this
        cases this
      have hk2 : ((s.technique.contextMap.cas gc.contextID oldVal
          (if value then VALID else INVALID)).2).read renderInfo.getContextID ≠ UNKNOWN := by
        rw [ContextMap.read_cas]
        by_cases hc : renderInfo.getContextID = gc.contextID
        · rw [if_pos hc, ← hc]
          simp only [compareAndSwap]
          split_ifs <;> simp [hk]
        · rw [if_neg hc]; exact hk
      refine ⟨inv.notAlways, ?_, ?_, ?_, inv.queued⟩
      · simp only [Technique.validateInContextSwap]
        exact fun x hx => ValidCall.consistent_mono (inv.consistent x hx) (fun _ => hk2)
      · simp only [Technique.validateInContextSwap]
        intro hu
        exact absurd hu hk2
      · simp only [Technique.validateInContextSwap]
        intro _
        exact inv.known hk

theorem System.Invariant.ops_length_le {F : Type} {this : TechniquePtr}
    {renderInfo : RenderInfo} {s : System F} (inv : s.Invariant this renderInfo) :
    s.ops.length ≤ 1 := by
  have hwon : s.calls.countP ValidCall.hasWon ≤ 1 := by
    by_cases h : s.technique.contextMap.read renderInfo.getContextID = UNKNOWN
    · rw [(inv.unknown h).1]; omega
    · rw [inv.known h]
  have hsched : s.calls.countP ValidCall.hasScheduled ≤ s.calls.countP ValidCall.hasWon := by
    apply List.countP_mono_left
    intro x _ hx
    cases x <;> simp_all [ValidCall.hasScheduled, ValidCall.hasWon]
  rw [inv.queued, List.length_replicate]
  omega

theorem System.Resolution.of_set {F : Type} {renderInfo : RenderInfo} {s : System F}
    (res : s.Resolution renderInfo) (t2 : Technique F) (ops2 : List QueuedOperation)
    (i : Nat) (call2 : ValidCall)
    (hslot : t2.contextMap.read renderInfo.getContextID
      = s.technique.contextMap.read renderInfo.getContextID)
    (hcall : ∀ result scheduled, call2 = ValidCall.done result scheduled →
      result ≠ QUERY_IN_PROGRESS →
      s.technique.contextMap.read renderInfo.getContextID = result) :
    ({ s with technique := t2, ops := ops2, calls := s.calls.set i call2 } :
      System F).Resolution renderInfo := by
  refine ⟨?_, ?_, ?_⟩
  · intro result scheduled hmem hne
    simp only [hslot]
    rcases List.mem_or_eq_of_mem_set hmem with h | h
    · exact res.returned result scheduled h hne
    · exact hcall result scheduled h.symm hne
  · simp only [hslot]
    exact res.idle
  · simp only [hslot]
    exact res.running

/-- Every atomic step keeps the second invariant. -/
theorem System.Resolution.preserved {F : Type} {this : TechniquePtr} {renderInfo : RenderInfo}
    {s : System F} (inv : s.Invariant this renderInfo) (res : s.Resolution renderInfo)
    (a : Action) : (System.step this renderInfo s a).Resolution renderInfo := by
  cases a with
  | call i =>
    cases hget : s.calls[i]? with
    | none =>
      have : System.step this renderInfo s (Action.call i) = s := by
        simp [System.step, hget]
      rw [this]; exact res
    | some call =>
      obtain ⟨hi, hci⟩ := List.getElem?_eq_some.mp hget
      have hmem : call ∈ s.calls := hci ▸ List.getElem_mem hi
      have hcons := inv.consistent call hmem
      rw [System.step_call this renderInfo s i call hget]
      cases call with
      | start =>
        by_cases h : s.technique.contextMap.read renderInfo.getContextID = UNKNOWN
        · rw [validStep_start_unknown this renderInfo _ _ inv.notAlways h]
          exact res.of_set _ _ i _ (by simp [ContextMap.read_access])
            (fun _ _ hc => by cases hc)
        · rw [validStep_start_known this renderInfo _ _ inv.notAlways h]
          refine res.of_set _ _ i _ (by simp [ContextMap.read_access]) ?_
          intro result scheduled hc _
          injection hc with h1 _
      | swap status =>
        have hst : status = UNKNOWN := hcons
        subst hst
        by_cases h : s.technique.contextMap.read renderInfo.getContextID = UNKNOWN
        · rw [validStep_swap_won this renderInfo _ _ h]
          have hslot : ((s.technique.contextMap.cas renderInfo.getContextID UNKNOWN
              QUERY_IN_PROGRESS).2).read renderInfo.getContextID = QUERY_IN_PROGRESS := by
            simp [ContextMap.read_cas, compareAndSwap, h]
          refine ⟨?_, ?_, ?_⟩
          · intro result scheduled hm hne
            exfalso
            rcases List.mem_or_eq_of_mem_set hm with hm | hm
            · exact (inv.consistent _ hm).1 h
            · cases hm
          · simp only [hslot]
            intro _ hq
            exact absurd rfl hq
          · intro gc oldVal hw
            have hrun := (res.running gc oldVal hw).2.2.1
            rw [h] at hrun
            cases hrun
        · rw [validStep_swap_lost this renderInfo _ _ h]
          exact res.of_set _ _ i _ (by simp [ContextMap.read_cas, compareAndSwap, h])
            (fun _ _ hc => by cases hc)
      | reread =>
        simp only [Technique.validStep]
        refine res.of_set _ _ i _ rfl ?_
        intro result scheduled hc _
        injection hc with h1 _
      | schedule =>
        rw [validStep_schedule]
        refine res.of_set _ _ i _ rfl ?_
        intro result scheduled hc hne
        injection hc with h1 _
        exact absurd h1.symm hne
      | done result scheduled =>
        have hsame : s.calls.set i (ValidCall.done result scheduled) = s.calls := by
          rw [← hci]; exact set_getElem_same s.calls i hi
        simp only [Technique.validStep, hsame]
        exact res
  | taskRead =>
    cases hw : s.worker with
    | some w =>
      have : System.step this renderInfo s Action.taskRead = s := by
        simp [System.step, hw]
      rw [this]; exact res
    | none =>
      cases hop : s.ops[s.started]? with
      | none =>
        have : System.step this renderInfo s Action.taskRead = s := by
          simp [System.step, hw, hop]
        rw [this]; exact res
      | some op =>
        have hstep : System.step this renderInfo s Action.taskRead
            = { s with technique := (s.technique.validateInContextRead op.context).2,
                       started := s.started + 1,
                       worker := some (op.context,
                         (s.technique.validateInContextRead op.context).1) } := by
          simp [System.step, hw, hop]
        rw [hstep]
        obtain ⟨hlt, hopeq⟩ := List.getElem?_eq_some.mp hop
        have hlen := inv.ops_length_le
        have hne : s.ops ≠ [] := by
          intro h
          rw [h] at hlt
          simp at hlt
        have hk : s.technique.contextMap.read renderInfo.getContextID ≠ UNKNOWN :=
          fun hu => hne (inv.unknown hu).2.1
        have hq : s.technique.contextMap.read renderInfo.getContextID = QUERY_IN_PROGRESS := by
          by_contra hnq
          have := (res.idle hk hnq).2
          omega
        have hopmem : op ∈ s.ops := hopeq ▸ List.getElem_mem hlt
        have hopval : op = scheduledOperation this renderInfo := by
          rw [inv.queued] at hopmem
          exact List.eq_of_mem_replicate hopmem
        have hctx : op.context = renderInfo.graphicsContext := by rw [hopval]; rfl
        refine ⟨?_, ?_, ?_⟩
        · simp only [Technique.validateInContextRead, ContextMap.read_access]
          exact res.returned
        · simp only [Technique.validateInContextRead, ContextMap.read_access]
          intro _ hnq
          exact absurd hq hnq
        · intro gc oldVal hwk
          simp only [Option.some.injEq, Prod.mk.injEq] at hwk
          obtain ⟨h1, h2⟩ := hwk
          subst h1 h2
          refine ⟨hctx, ?_, ?_, by simp⟩
          · simp only [Technique.validateInContextRead, ContextMap.read_access, hctx]
            exact hq
          · simp only [Technique.validateInContextRead, ContextMap.read_access]
            exact hq
  | taskSwap value =>
    cases hw : s.worker with
    | none =>
      have : System.step this renderInfo s (Action.taskSwap value) = s := by
        simp [System.step, hw]
      rw [this]; exact res
    | some w =>
      obtain ⟨gc, oldVal⟩ := w
      have hstep : System.step this renderInfo s (Action.taskSwap value)
          = { s with technique := s.technique.validateInContextSwap gc oldVal value,
                     worker := none } := by
        simp [System.step, hw]
      rw [hstep]
      obtain ⟨hgc, hold, hq, hstarted⟩ := res.running gc oldVal hw
      subst hgc hold
      refine ⟨?_, ?_, ?_⟩
      · intro result scheduled hm hne
        have := res.returned result scheduled hm hne
        rw [hq] at this
        exact absurd this.symm hne
      · intro _ _
        exact ⟨rfl, hstarted⟩
      · intro gc oldVal hwk
        cases hwk

theorem System.Resolution.initially {F : Type} (renderInfo : RenderInfo) (t : Technique F)
    (n : Nat) (hSlot : t.contextMap.read renderInfo.getContextID = UNKNOWN) :
    (System.init t n).Resolution renderInfo := by
  refine ⟨?_, ?_, ?_⟩
  · intro result scheduled hm _
    have : ValidCall.done result scheduled = ValidCall.start :=
      List.eq_of_mem_replicate hm
    cases this
  · intro hk
    exact absurd hSlot hk
  · intro gc oldVal hw
    cases hw

theorem System.Resolution.afterRun {F : Type} {this : TechniquePtr} {renderInfo : RenderInfo}
    (interleaving : List Action) {s : System F} (inv : s.Invariant this renderInfo)
    (res : s.Resolution renderInfo) :
    (System.run this renderInfo s interleaving).Resolution renderInfo := by
  induction interleaving generalizing s with
  | nil => exact res
  | cons a rest ih => exact ih (inv.step a) (res.preserved inv a)

theorem System.Invariant.init {F : Type} (this : TechniquePtr) (renderInfo : RenderInfo)
    (t : Technique F) (n : Nat) (hAlways : t.alwaysValid = false)
    (hSlot : t.contextMap.read renderInfo.getContextID = UNKNOWN) :
    (System.init t n).Invariant this renderInfo := by
  have hw : (List.replicate n ValidCall.start).countP ValidCall.hasWon = 0 := by
    rw [List.countP_eq_zero]
    intro a ha
    rw [List.eq_of_mem_replicate ha]
    simp [ValidCall.hasWon]
  have hs : (List.replicate n ValidCall.start).countP ValidCall.hasScheduled = 0 := by
    rw [List.countP_eq_zero]
    intro a ha
    rw [List.eq_of_mem_replicate ha]
    simp [ValidCall.hasScheduled]
  refine ⟨hAlways, ?_, ?_, ?_, ?_⟩
  · intro call hc
    have : call = ValidCall.start := List.eq_of_mem_replicate hc
    rw [this]; trivial
  · intro _
    exact ⟨hw, rfl, rfl⟩
  · intro hk
    exact absurd hSlot hk
  · show [] = List.replicate _ _
    rw [show (System.init t n).calls = List.replicate n ValidCall.start from rfl, hs]
    rfl

theorem System.Invariant.run {F : Type} {this : TechniquePtr} {renderInfo : RenderInfo}
    (interleaving : List Action) {s : System F} (inv : s.Invariant this renderInfo) :
    (System.run this renderInfo s interleaving).Invariant this renderInfo := by
  induction interleaving generalizing s with
  | nil => exact inv
  | cons a rest ih => exact ih (inv.step a)

theorem validStep_stepsLeft {F : Type} (this : TechniquePtr) (renderInfo : RenderInfo)
    (call : ValidCall) (t : Technique F) (ops : List QueuedOperation) :
    (Technique.validStep this renderInfo call t ops).1.stepsLeft ≤ call.stepsLeft - 1 := by
  cases call with
  | start =>
    simp only [Technique.validStep]
    split_ifs <;> simp [ValidCall.stepsLeft]
  | swap status =>
    simp only [Technique.validStep]
    split_ifs <;> simp [ValidCall.stepsLeft]
  | reread => simp [Technique.validStep, ValidCall.stepsLeft]
  | schedule =>
    simp only [Technique.validStep]
    split_ifs <;> simp [ValidCall.stepsLeft]
  | done result scheduled => simp [Technique.validStep, ValidCall.stepsLeft]

theorem System.step_calls_taskRead {F : Type} (this : TechniquePtr) (renderInfo : RenderInfo)
    (s : System F) : (System.step this renderInfo s Action.taskRead).calls = s.calls := by
  simp only [System.step]
  split <;> rfl

theorem System.step_calls_taskSwap {F : Type} (this : TechniquePtr) (renderInfo : RenderInfo)
    (s : System F) (value : Bool) :
    (System.step this renderInfo s (Action.taskSwap value)).calls = s.calls := by
  simp only [System.step]
  split <;> rfl

/-- One atomic step leaves every call in place and, when it is a step of call
`i`, takes one off the steps that call has left. -/
theorem System.step_stepsLeft {F : Type} (this : TechniquePtr) (renderInfo : RenderInfo)
    (s : System F) (a : Action) (i : Nat) (call : ValidCall)
    (hget : s.calls[i]? = some call) :
    ∃ call2, (System.step this renderInfo s a).calls[i]? = some call2
      ∧ call2.stepsLeft ≤ call.stepsLeft - (if a = Action.call i then 1 else 0) := by
  cases a with
  | call j =>
    by_cases hji : j = i
    · subst hji
      rw [System.step_call this renderInfo s j call hget]
      have hj : j < s.calls.length := (List.getElem?_eq_some.mp hget).1
      refine ⟨(Technique.validStep this renderInfo call s.technique s.ops).1, ?_, ?_⟩
      · simp only [List.getElem?_set, if_true, hj]
      · simpa using validStep_stepsLeft this renderInfo call s.technique s.ops
    · have hne : Action.call j ≠ Action.call i := by
        intro h; injection h with h; exact hji h
      refine ⟨call, ?_, by simp [hne]⟩
      cases hj : s.calls[j]? with
      | none =>
        have : System.step this renderInfo s (Action.call j) = s := by
          simp [System.step, hj]
        rw [this]; exact hget
      | some cj =>
        rw [System.step_call this renderInfo s j cj hj]
        simp only [List.getElem?_set_ne hji]
        exact hget
  | taskRead =>
    exact ⟨call, by rw [System.step_calls_taskRead]; exact hget, by simp⟩
  | taskSwap value =>
    exact ⟨call, by rw [System.step_calls_taskSwap]; exact hget, by simp⟩

theorem System.step_length {F : Type} (this : TechniquePtr) (renderInfo : RenderInfo)
    (s : System F) (a : Action) :
    (System.step this renderInfo s a).calls.length = s.calls.length := by
  cases a with
  | call j =>
    cases hj : s.calls[j]? with
    | none =>
      have : System.step this renderInfo s (Action.call j) = s := by
        simp [System.step, hj]
      rw [this]
    | some cj =>
      rw [System.step_call this renderInfo s j cj hj]
      simp
  | taskRead => rw [System.step_calls_taskRead]
  | taskSwap value => rw [System.step_calls_taskSwap]

theorem System.run_length {F : Type} (this : TechniquePtr) (renderInfo : RenderInfo)
    (interleaving : List Action) (s : System F) :
    (System.run this renderInfo s interleaving).calls.length = s.calls.length := by
  induction interleaving generalizing s with
  | nil => rfl
  | cons a rest ih =>
    show (System.run this renderInfo (System.step this renderInfo s a) rest).calls.length = _
    rw [ih, System.step_length]

/-- After an interleaving, call `i` has at most as many steps left as it had
before, less the steps the interleaving gave it. -/
theorem System.run_stepsLeft {F : Type} (this : TechniquePtr) (renderInfo : RenderInfo)
    (interleaving : List Action) (s : System F) (i : Nat) (call : ValidCall)
    (hget : s.calls[i]? = some call) :
    ∃ call2, (System.run this renderInfo s interleaving).calls[i]? = some call2
      ∧ call2.stepsLeft ≤ call.stepsLeft - interleaving.count (Action.call i) := by
  induction interleaving generalizing s call with
  | nil => exact ⟨call, hget, by simp⟩
  | cons a rest ih =>
    obtain ⟨c1, h1, hle1⟩ := System.step_stepsLeft this renderInfo s a i call hget
    obtain ⟨c2, h2, hle2⟩ := ih (System.step this renderInfo s a) c1 h1
    refine ⟨c2, h2, ?_⟩
    rw [List.count_cons]
    by_cases ha : a = Action.call i
    · simp only [ha, if_true] at hle1
      simp only [ha, beq_self_eq_true, if_true]
      omega
    · simp only [ha, if_false] at hle1
      have hb : (a == Action.call i) = false := by simpa using ha
      simp only [hb]
      simp only [Bool.false_eq_true, if_false]
      omega

theorem ValidCall.isDone_of_stepsLeft {call : ValidCall} (h : call.stepsLeft = 0) :
    call.isDone = true := by
  cases call <;> simp_all [ValidCall.stepsLeft, ValidCall.isDone]

/-- A list with exactly one element satisfying `p` has it at one index, every
other index holding an element that does not satisfy `p`. -/
theorem exists_unique_index_of_countP {α : Type} (p : α → Bool) (l : List α)
    (h : l.countP p = 1) :
    ∃ (i : Nat) (a : α), l[i]? = some a ∧ p a = true
      ∧ ∀ (j : Nat) (b : α), l[j]? = some b → j ≠ i → p b = false := by
  induction l with
  | nil => simp at h
  | cons x xs ih =>
    rw [List.countP_cons] at h
    by_cases hx : p x = true
    · simp only [hx, if_true] at h
      have h0 : xs.countP p = 0 := by omega
      rw [List.countP_eq_zero] at h0
      refine ⟨0, x, by simp, hx, ?_⟩
      intro j b hj hne
      cases j with
      | zero => exact absurd rfl hne
      | succ k =>
        simp only [List.getElem?_cons_succ] at hj
        have hb : b ∈ xs := List.mem_iff_getElem?.mpr ⟨k, hj⟩
        simpa using h0 b hb
    · simp only [hx, if_false, Bool.false_eq_true] at h
      obtain ⟨i, a, hi, ha, hrest⟩ := ih (by omega)
      refine ⟨i + 1, a, by simpa using hi, ha, ?_⟩
      intro j b hj hne
      cases j with
      | zero =>
        simp only [List.getElem?_cons_zero, Option.some.injEq] at hj
        rw [← hj]; simpa using hx
      | succ k =>
        simp only [List.getElem?_cons_succ] at hj
        exact hrest k b hj (by omega)

/-- C3: take `n >= 1` calls of `valid` on one context of a technique not
marked always-valid, the slot of that context being `UNKNOWN` at the start,
and any interleaving of their atomic steps (slot read, compare-and-swap,
second read, queue insertion) with the steps of the queued validation
operations, no invalidation among them. At most one operation is ever queued.
Every call that gets three steps has returned. Once all calls have returned,
exactly one operation has been queued, by the one call that returned
`QUERY_IN_PROGRESS` after winning the swap; every other call queued nothing
and returned `QUERY_IN_PROGRESS` or the `VALID` or `INVALID` the slot was
resolved to and still holds. -/
theorem valid_concurrent_schedules_once {F : Type} (this : TechniquePtr)
    (renderInfo : RenderInfo) (t : Technique F) (n : Nat) (interleaving : List Action)
    (hN : 1 ≤ n) (hAlways : t.alwaysValid = false)
    (hSlot : t.contextMap.read renderInfo.getContextID = UNKNOWN) :
    (System.run this renderInfo (System.init t n) interleaving).calls.length = n
    ∧ (System.run this renderInfo (System.init t n) interleaving).ops.length ≤ 1
    ∧ ((∀ i, i < n → 3 ≤ interleaving.count (Action.call i)) →
        ∀ call ∈ (System.run this renderInfo (System.init t n) interleaving).calls,
          call.isDone = true)
    ∧ ((∀ call ∈ (System.run this renderInfo (System.init t n) interleaving).calls,
          call.isDone = true) →
        (System.run this renderInfo (System.init t n) interleaving).ops
          = [scheduledOperation this renderInfo]
        ∧ ∃ i, i < n
          ∧ (System.run this renderInfo (System.init t n) interleaving).calls[i]?
              = some (ValidCall.done QUERY_IN_PROGRESS true)
          ∧ ∀ j, j < n → j ≠ i →
              ∃ result,
                (System.run this renderInfo (System.init t n) interleaving).calls[j]?
                  = some (ValidCall.done result false)
                ∧ (result = QUERY_IN_PROGRESS
                  ∨ ((result = VALID ∨ result = INVALID)
                    ∧ (System.run this renderInfo (System.init t n)
                          interleaving).technique.contextMap.read renderInfo.getContextID
                        = result))) := by
  have inv := System.Invariant.run interleaving
    (System.Invariant.init this renderInfo t n hAlways hSlot)
  have res := System.Resolution.afterRun interleaving
    (System.Invariant.init this renderInfo t n hAlways hSlot)
    (System.Resolution.initially renderInfo t n hSlot)
  have hlen : (System.run this renderInfo (System.init t n) interleaving).calls.length = n := by
    rw [System.run_length]
    simp [System.init]
  have hinit : ∀ i, i < n → (System.init t n).calls[i]? = some ValidCall.start := by
    intro i hi
    simp [System.init, List.getElem?_replicate, hi]
  have hprog : (∀ i, i < n → 3 ≤ interleaving.count (Action.call i)) →
      ∀ call ∈ (System.run this renderInfo (System.init t n) interleaving).calls,
        call.isDone = true := by
    intro hfair call hmem
    obtain ⟨i, hi⟩ := List.mem_iff_getElem?.mp hmem
    have hil : i < n := by
      rw [← hlen]
      exact (List.getElem?_eq_some.mp hi).1
    obtain ⟨call2, h2, hle⟩ := System.run_stepsLeft this renderInfo interleaving
      (System.init t n) i ValidCall.start (hinit i hil)
    rw [hi] at h2
    injection h2 with h2
    subst h2
    have h3 := hfair i hil
    apply ValidCall.isDone_of_stepsLeft
    have hthree : ValidCall.start.stepsLeft = 3 := rfl
    rw [hthree] at hle
    omega
  generalize System.run this renderInfo (System.init t n) interleaving = s
    at inv res hlen hprog
  have hwon : s.calls.countP ValidCall.hasWon ≤ 1 := by
    by_cases h : s.technique.contextMap.read renderInfo.getContextID = UNKNOWN
    · rw [(inv.unknown h).1]; omega
    · rw [inv.known h]
  have hsched : s.calls.countP ValidCall.hasScheduled ≤ s.calls.countP ValidCall.hasWon := by
    apply List.countP_mono_left
    intro x _ hx
    cases x <;> simp_all [ValidCall.hasScheduled, ValidCall.hasWon]
  refine ⟨hlen, ?_, ?_, ?_⟩
  · rw [inv.queued, List.length_replicate]
    omega
  · exact hprog
  · intro hdone
    have h0 : (0 : Nat) < s.calls.length := by omega
    have hfirst := hdone s.calls[0] (List.getElem_mem h0)
    have hcons0 := inv.consistent s.calls[0] (List.getElem_mem h0)
    have hknown : s.technique.contextMap.read renderInfo.getContextID ≠ UNKNOWN := by
      cases hc : s.calls[0] with
      | done result scheduled =>
        rw [hc] at hcons0
        exact hcons0.1
      | start => rw [hc] at hfirst; simp [ValidCall.isDone] at hfirst
      | swap status => rw [hc] at hfirst; simp [ValidCall.isDone] at hfirst
      | reread => rw [hc] at hfirst; simp [ValidCall.isDone] at hfirst
      | schedule => rw [hc] at hfirst; simp [ValidCall.isDone] at hfirst
    have hone := inv.known hknown
    have hsame : s.calls.countP ValidCall.hasScheduled = s.calls.countP ValidCall.hasWon := by
      apply List.countP_congr
      intro x hx
      have := hdone x hx
      cases x <;> simp_all [ValidCall.hasScheduled, ValidCall.hasWon, ValidCall.isDone]
    refine ⟨by rw [inv.queued, hsame, hone]; rfl, ?_⟩
    obtain ⟨i, a, hi, ha, hrest⟩ := exists_unique_index_of_countP ValidCall.hasWon s.calls hone
    have hil : i < s.calls.length := (List.getElem?_eq_some.mp hi).1
    have hamem : a ∈ s.calls := List.mem_iff_getElem?.mpr ⟨i, hi⟩
    refine ⟨i, by omega, ?_, ?_⟩
    · have hd := hdone a hamem
      have hc := inv.consistent a hamem
      cases a with
      | done result scheduled =>
        have hs : scheduled = true := by simpa [ValidCall.hasWon] using ha
        subst hs
        rw [hc.2.2 rfl] at hi
        exact hi
      | start => simp [ValidCall.isDone] at hd
      | swap status => simp [ValidCall.isDone] at hd
      | reread => simp [ValidCall.isDone] at hd
      | schedule => simp [ValidCall.isDone] at hd
    · intro j hj hne
      have hjl : j < s.calls.length := by omega
      have hjget : s.calls[j]? = some s.calls[j] := List.getElem?_eq_getElem hjl
      have hb := hrest j s.calls[j] hjget hne
      have hd := hdone s.calls[j] (List.getElem_mem hjl)
      have hc := inv.consistent s.calls[j] (List.getElem_mem hjl)
      rw [hjget]
      cases hcj : s.calls[j] with
      | done result scheduled =>
        rw [hcj] at hb hc
        have hs : scheduled = false := by simpa [ValidCall.hasWon] using hb
        subst hs
        refine ⟨result, rfl, ?_⟩
        have hr := hc.2.1
        by_cases hq : result = QUERY_IN_PROGRESS
        · exact Or.inl hq
        · right
          have hslot := res.returned result false (hcj ▸ List.getElem_mem hjl) hq
          refine ⟨?_, hslot⟩
          cases result <;> simp_all
      | start => rw [hcj] at hd; simp [ValidCall.isDone] at hd
      | swap status => rw [hcj] at hd; simp [ValidCall.isDone] at hd
      | reread => rw [hcj] at hd; simp [ValidCall.isDone] at hd
      | schedule => rw [hcj] at hd; simp [ValidCall.isDone] at hd

theorem valid_concurrent_schedules_once_witness :
    (System.run 7 ⟨⟨1, true⟩⟩ (System.init sampleTechnique 2) sampleInterleaving).calls
        = [ValidCall.done VALID false, ValidCall.done QUERY_IN_PROGRESS true]
    ∧ (System.run 7 ⟨⟨1, true⟩⟩ (System.init sampleTechnique 2) sampleInterleaving).ops
        = [scheduledOperation 7 ⟨⟨1, true⟩⟩]
    ∧ (System.run 7 ⟨⟨1, true⟩⟩ (System.init sampleTechnique 2)
          sampleInterleaving).technique.contextMap
        = [⟨VALID⟩, ⟨VALID⟩, ⟨INVALID⟩] :=
  ⟨by decide,
    ((valid_concurrent_schedules_once 7 ⟨⟨1, true⟩⟩ sampleTechnique 2 sampleInterleaving
      (by decide) rfl (by decide)).2.2.2 (by decide)).1,
    by decide⟩

end simgear
